import Mathlib

/-
Verification of the placeholder-preserving PO-file translation pipeline.

The program under study translates gettext PO catalogs through an external
machine-translation provider.  Its core is a placeholder codec
(`_extract_format_placeholders` / `_restore_format_placeholders`), a
translation gateway (`translate_text` / `translate_batch`) and a catalog
driver (`translate_po_file`).  Strings are modelled as `List Char`; the
provider and the catalog store are modelled as explicit parameters; raised
exceptions of the provider are modelled with `Except`.  Recursive text
scanners take a fuel argument (always instantiated with the text length,
which strictly bounds the recursion depth) so that all definitions compute
by structural recursion.
-/

namespace PoTranslator

/-- Whitespace characters stripped by Python `str.strip()` (ASCII core). -/
def isPyWhite (c : Char) : Bool :=
  c = ' ' || c = '\t' || c = '\n' || c = '\r' || c = '\x0b' || c = '\x0c'

/-- Truthiness of `text.strip()`: the text has some non-whitespace character. -/
def nonBlank (s : List Char) : Bool := s.any (fun c => !(isPyWhite c))

/-- Does the pattern `p` start the list `s`?  (Python `str.startswith`.) -/
def listStartsWith : List Char → List Char → Bool
  | [], _ => true
  | _ :: _, [] => false
  | a :: as, b :: bs => a = b && listStartsWith as bs

/-- Python `s.replace(old, new, 1)`: replace the first occurrence of `old`
(an empty `old` matches at the very start). -/
def replaceFirst : List Char → List Char → List Char → List Char
  | [], old, new => if old = [] then new else []
  | c :: rest, old, new =>
    if listStartsWith old (c :: rest) then new ++ (c :: rest).drop old.length
    else c :: replaceFirst rest old new

/-- Fuelled loop of `replaceAll`; the fuel strictly bounds the number of
steps, each of which consumes at least one character. -/
def replaceAllGo (old new : List Char) : Nat → List Char → List Char
  | 0, s => s
  | _ + 1, [] => []
  | fuel + 1, c :: rest =>
    if listStartsWith old (c :: rest) then
      new ++ replaceAllGo old new fuel ((c :: rest).drop old.length)
    else c :: replaceAllGo old new fuel rest

/-- Python `s.replace(old, new)`: replace all non-overlapping occurrences of
`old`, scanning left to right.  For an empty `old`, Python inserts `new` at
every character boundary. -/
def replaceAll (s old new : List Char) : List Char :=
  if old = [] then new ++ (s.map (fun c => c :: new)).flatten
  else replaceAllGo old new s.length s

/-- Body scan of the brace regex `(\{[^\x7b\x7d]*\})` after the opening brace:
collect characters up to the first `}`, failing if a `{` or the end of the
text comes first. -/
def braceBody : List Char → Option (List Char × List Char)
  | [] => none
  | c :: rest =>
    if c = '}' then some ([], rest)
    else if c = '{' then none
    else
      match braceBody rest with
      | some (body, after) => some (c :: body, after)
      | none => none

/-- Fuelled scan for all matches of the brace pattern, in `re.finditer`
order: non-overlapping, leftmost first. -/
def braceFinditerGo : Nat → List Char → List (List Char)
  | 0, _ => []
  | _ + 1, [] => []
  | fuel + 1, c :: rest =>
    if c = '{' then
      match braceBody rest with
      | some (body, after) => ('{' :: (body ++ ['}'])) :: braceFinditerGo fuel after
      | none => braceFinditerGo fuel rest
    else braceFinditerGo fuel rest

/-- All matches of `(\{[^\x7b\x7d]*\})`, as produced by `re.finditer`. -/
def braceFinditer (l : List Char) : List (List Char) := braceFinditerGo l.length l

/-- Body scan of the percent regex after `%(`: collect characters up to the
first `)`, failing if a `(` or the end of the text comes first. -/
def parenBody : List Char → Option (List Char × List Char)
  | [] => none
  | c :: rest =>
    if c = ')' then some ([], rest)
    else if c = '(' then none
    else
      match parenBody rest with
      | some (body, after) => some (c :: body, after)
      | none => none

/-- Conversion-type characters of the percent pattern
`(%\([^()]*\)[diouxXeEfFgGcrs])`. -/
def isConvChar (c : Char) : Bool :=
  c = 'd' || c = 'i' || c = 'o' || c = 'u' || c = 'x' || c = 'X' || c = 'e' ||
  c = 'E' || c = 'f' || c = 'F' || c = 'g' || c = 'G' || c = 'c' || c = 'r' || c = 's'

/-- Attempt of the percent pattern at the character after a `%`: requires
`(`, then a paren-free body, `)`, and a conversion-type character; returns
the full matched text and the remaining input. -/
def percentTry (rest : List Char) : Option (List Char × List Char) :=
  match rest with
  | c2 :: rest2 =>
    if c2 = '(' then
      match parenBody rest2 with
      | some (body, cv :: after) =>
        if isConvChar cv then
          some ('%' :: '(' :: (body ++ [')', cv]), after)
        else none
      | some (_, []) => none
      | none => none
    else none
  | [] => none

/-- Fuelled scan for all matches of the percent pattern, in `re.finditer`
order. -/
def percentFinditerGo : Nat → List Char → List (List Char)
  | 0, _ => []
  | _ + 1, [] => []
  | fuel + 1, c :: rest =>
    if c = '%' then
      match percentTry rest with
      | some (m, after) => m :: percentFinditerGo fuel after
      | none => percentFinditerGo fuel rest
    else percentFinditerGo fuel rest

/-- All matches of `(%\([^()]*\)[diouxXeEfFgGcrs])`, as `re.finditer`. -/
def percentFinditer (l : List Char) : List (List Char) := percentFinditerGo l.length l

/-- Decimal digit character, `0` maps to `'0'`, ..., `9` maps to `'9'`. -/
def digitChar : Nat → Char
  | 0 => '0' | 1 => '1' | 2 => '2' | 3 => '3' | 4 => '4'
  | 5 => '5' | 6 => '6' | 7 => '7' | 8 => '8' | _ => '9'

/-- Fuelled accumulator loop of the decimal rendering of a natural number;
fuel `n` suffices for input `n`. -/
def natStrGo : Nat → Nat → List Char → List Char
  | 0, n, acc => digitChar n :: acc
  | fuel + 1, n, acc =>
    if n < 10 then digitChar n :: acc
    else natStrGo fuel (n / 10) (digitChar (n % 10) :: acc)

/-- Decimal rendering of a natural number, as Python `str(i)` inside an
f-string. -/
def natStr (n : Nat) : List Char := natStrGo n n []

/-- The two kinds of placeholder markers. -/
inductive MKind
  | brace
  | percent
deriving DecidableEq

/-- The fixed leading part of a marker, before the index. -/
def markerLead : MKind → List Char
  | .brace => ['_', '_', 'F', 'O', 'R', 'M', 'A', 'T', '_', 'B', 'R', 'A', 'C', 'E', '_']
  | .percent =>
    ['_', '_', 'F', 'O', 'R', 'M', 'A', 'T', '_', 'P', 'E', 'R', 'C', 'E', 'N', 'T', '_']

/-- The marker string `__FORMAT_BRACE_<i>__` resp. `__FORMAT_PERCENT_<i>__`. -/
def markerStr (k : MKind) (i : Nat) : List Char :=
  markerLead k ++ natStr i ++ ['_', '_']

/-- Model of `_extract_format_placeholders`: first each brace match found in
the original text is replaced (first remaining occurrence) by its brace
marker, then each percent match found in the brace-substituted text is
replaced by its percent marker.  The map is built in insertion order. -/
def extractFormatPlaceholders (text : List Char) :
    List Char × List (List Char × List Char) :=
  let step1 := (braceFinditer text).enum.foldl
    (fun acc p =>
      (replaceFirst acc.1 p.2 (markerStr .brace p.1),
       acc.2 ++ [(markerStr .brace p.1, p.2)]))
    (text, ([] : List (List Char × List Char)))
  (percentFinditer step1.1).enum.foldl
    (fun acc p =>
      (replaceFirst acc.1 p.2 (markerStr .percent p.1),
       acc.2 ++ [(markerStr .percent p.1, p.2)]))
    step1

/-- Model of `_restore_format_placeholders`: replace every marker by its
placeholder, in map insertion order. -/
def restoreFormatPlaceholders (text : List Char)
    (placeholders : List (List Char × List Char)) : List Char :=
  placeholders.foldl (fun acc p => replaceAll acc p.1 p.2) text

/-- Spec 4.1 first pass, recomputed standalone: each brace match of the
original text, taken in scan order with a zero-based index, replaces the
first remaining occurrence of itself in the working text by its marker. -/
def specBracePassText (text : List Char) : List Char :=
  (braceFinditer text).enum.foldl
    (fun acc p => replaceFirst acc p.2 (markerStr .brace p.1)) text

/-- Spec 4.1 second pass: percent matches are scanned in the
brace-substituted text and replaced under an independent zero-based
counter. -/
def specProcessedText (text : List Char) : List Char :=
  (percentFinditer (specBracePassText text)).enum.foldl
    (fun acc p => replaceFirst acc p.2 (markerStr .percent p.1))
    (specBracePassText text)

/-- Spec 4.1: the combined placeholder map, the brace entries (indexed from
zero over the original text) followed by the percent entries (indexed from
zero over the brace-substituted text), each mapping the marker to the
matched placeholder. -/
def specPlaceholderMap (text : List Char) : List (List Char × List Char) :=
  (braceFinditer text).enum.map (fun p => (markerStr .brace p.1, p.2)) ++
  (percentFinditer (specBracePassText text)).enum.map
    (fun p => (markerStr .percent p.1, p.2))

/-- The external DeepL client, as consumed by the gateway: one entry point
per request kind; a raised exception is modelled by `Except.error`. -/
structure DeepLClient where
  translateOne : List Char → List Char → List Char → Except Unit (List Char)
  translateMany : List (List Char) → List Char → List Char → Except Unit (List (List Char))

/-- Observable outcome of one `translate_text` call: the returned value
(`none` models Python `None`), the payloads of the provider calls made, and
the number of error messages written to the diagnostic channel. -/
structure OneResult where
  out : Option (List Char)
  calls : List (List Char)
  errs : Nat
deriving DecidableEq

/-- Model of `translate_text`, generalised over the placeholder codec (the
real codec is plugged in by `translateText`), so that non-involvement of the
codec on blank input is expressible as independence from these arguments. -/
def translateTextWith
    (extractF : List Char → List Char × List (List Char × List Char))
    (restoreF : List Char → List (List Char × List Char) → List Char)
    (client : DeepLClient) (text sourceLang targetLang : List Char) : OneResult :=
  if !(nonBlank text) then { out := some text, calls := [], errs := 0 }
  else
    let p := extractF text
    match client.translateOne p.1 sourceLang targetLang with
    | .error _ => { out := none, calls := [p.1], errs := 1 }
    | .ok t => { out := some (restoreF t p.2), calls := [p.1], errs := 0 }

/-- Model of `translate_text`. -/
def translateText (client : DeepLClient) (text sourceLang targetLang : List Char) :
    OneResult :=
  translateTextWith extractFormatPlaceholders restoreFormatPlaceholders
    client text sourceLang targetLang

/-- Observable outcome of one `translate_batch` call. -/
structure BatchResult where
  out : List (Option (List Char))
  calls : List (List (List Char))
  errs : Nat
deriving DecidableEq

/-- `non_empty_indices = [i for i, text in enumerate(texts) if text.strip()]`. -/
def nonEmptyIndicesOf (texts : List (List Char)) : List Nat :=
  (texts.enum.filter (fun p => nonBlank p.2)).map Prod.fst

/-- `non_empty_texts = [texts[i] for i in non_empty_indices]`. -/
def nonEmptyTextsOf (texts : List (List Char)) : List (List Char) :=
  (nonEmptyIndicesOf texts).map (fun i => texts.getD i [])

/-- The processed texts submitted to the provider by `translate_batch`. -/
def submittedTexts (texts : List (List Char)) : List (List Char) :=
  ((nonEmptyTextsOf texts).map extractFormatPlaceholders).map Prod.fst

/-- The per-item placeholder maps collected by `translate_batch`. -/
def placeholdersListOf (texts : List (List Char)) :
    List (List (List Char × List Char)) :=
  ((nonEmptyTextsOf texts).map extractFormatPlaceholders).map Prod.snd

/-- Model of `translate_batch`: blank entries are filtered out; with no
non-blank entry the input is returned as is without a provider call; on a
provider error the whole batch degrades to `None`s; on success the results
are written back at the non-blank indices (`zip` truncates at the shorter
of the index list and the result list). -/
def translateBatch (client : DeepLClient) (texts : List (List Char))
    (sourceLang targetLang : List Char) : BatchResult :=
  if (nonEmptyTextsOf texts).isEmpty then
    { out := texts.map some, calls := [], errs := 0 }
  else
    match client.translateMany (submittedTexts texts) sourceLang targetLang with
    | .error _ =>
      { out := texts.map (fun _ => none), calls := [submittedTexts texts], errs := 1 }
    | .ok results =>
      { out := (((nonEmptyIndicesOf texts).zip results).enum).foldl
          (fun acc p =>
            acc.set p.2.1
              (some (restoreFormatPlaceholders p.2.2
                ((placeholdersListOf texts).getD p.1 []))))
          (texts.map some),
        calls := [submittedTexts texts], errs := 0 }

/-- A catalog entry as exposed by the external PO library: the identifier,
the translated-string slot, the plural identifier, and the value of the
library's `translated()` query for the loaded entry. -/
structure POEntry where
  msgid : List Char
  msgstr : List Char
  msgidPlural : List Char
  isTranslated : Bool
deriving DecidableEq

/-- The loop body of `translate_po_file` for one entry: skip translated
entries, skip (with an informational notice) plural entries, otherwise
translate the msgid and assign the slot only for a truthy result; a falsy
result (`None` or the empty string) leaves the entry unchanged and prints a
failure notice.  Returns the updated entry and the failure-notice count. -/
def processEntry (client : DeepLClient) (sourceLang targetLang : List Char)
    (e : POEntry) : POEntry × Nat :=
  if e.isTranslated then (e, 0)
  else if e.msgidPlural ≠ [] then (e, 0)
  else
    match (translateText client e.msgid sourceLang targetLang).out with
    | some t => if t ≠ [] then ({ e with msgstr := t }, 0) else (e, 1)
    | none => (e, 1)

/-- Model of `translate_po_file`: catalog loading and saving are external
and may raise; they are modelled by the load result and a save-success
flag.  Returns the overall success flag, the final entries, and the number
of per-entry failure notices. -/
def translatePoFile (client : DeepLClient) (loadRes : Except Unit (List POEntry))
    (saveOk : Bool) (sourceLang targetLang : List Char) :
    Bool × List POEntry × Nat :=
  match loadRes with
  | .error _ => (false, [], 0)
  | .ok entries =>
    if (entries.filter (fun e => !e.isTranslated)).length = 0 then (true, entries, 0)
    else
      let stepped := entries.map (processEntry client sourceLang targetLang)
      if saveOk then (true, stepped.map Prod.fst, (stepped.map Prod.snd).sum)
      else (false, stepped.map Prod.fst, (stepped.map Prod.snd).sum)

/-- The non-blank index scan of `translate_batch`, generalised over the
enumeration start (the scan itself starts at 0). -/
def idxFrom (n : Nat) (texts : List (List Char)) : List Nat :=
  ((List.enumFrom n texts).filter (fun p => nonBlank p.2)).map Prod.fst

/-- Fold of positional writes, the shape of the write-back loop of
`translate_batch`. -/
def setFold {α : Type} (ps : List (Nat × α)) (init : List α) : List α :=
  ps.foldl (fun acc p => acc.set p.1 p.2) init

/-- The pairs `(index, value written there)` produced by the write-back loop
of `translate_batch` on a successful provider call. -/
def writePairs (texts : List (List Char)) (results : List (List Char)) :
    List (Nat × Option (List Char)) :=
  (((nonEmptyIndicesOf texts).zip results).enum).map
    (fun p => (p.2.1, some (restoreFormatPlaceholders p.2.2
      ((placeholdersListOf texts).getD p.1 []))))

/-- A stub client that always raises. -/
def errClient : DeepLClient where
  translateOne := fun _ _ _ => .error ()
  translateMany := fun _ _ _ => .error ()

/-- A stub client that echoes every submitted payload back. -/
def echoClient : DeepLClient where
  translateOne := fun t _ _ => .ok t
  translateMany := fun ts _ _ => .ok ts

/-- A stub client that returns an empty translation for every payload. -/
def blankClient : DeepLClient where
  translateOne := fun _ _ _ => .ok []
  translateMany := fun ts _ _ => .ok (ts.map (fun _ => []))

/-- A stub client whose batched call returns an empty result list. -/
def shortClient : DeepLClient where
  translateOne := fun _ _ _ => .ok []
  translateMany := fun _ _ _ => .ok []

/-- Digit characters `0`..`9`. -/
def isDigitCh (c : Char) : Bool :=
  c == '0' || c == '1' || c == '2' || c == '3' || c == '4' ||
  c == '5' || c == '6' || c == '7' || c == '8' || c == '9'

/-- Decimal value of a digit string. -/
def decVal (l : List Char) : Nat := l.foldl (fun a c => 10 * a + (c.toNat - 48)) 0

/-- First character is not `F`. -/
def headNotF : List Char → Bool
  | [] => true
  | c :: _ => c != 'F'

/-- The continuation does not start with `F` nor with `_F`: under these two
conditions no marker occurrence can begin inside the two trailing
underscores of a preceding marker. -/
def goodFollow : List Char → Bool
  | [] => true
  | c :: b2 =>
    if c = 'F' then false
    else if c = '_' then headNotF b2
    else true

/-- No occurrence of `old` starts at any position of `P` when the text
continues with `b`. -/
def NoStart (old : List Char) : List Char → List Char → Prop
  | [], _ => True
  | c :: t, b => listStartsWith old (c :: (t ++ b)) = false ∧ NoStart old t b

/-- A decomposition of a source text into literal runs and placeholder
shapes; `mark` segments appear in the intermediate working texts of the
extraction passes and during restoration. -/
inductive Seg
  | lit : List Char → Seg
  | br : List Char → Seg
  | pc : List Char → Char → Seg
  | mark : MKind → Nat → Seg
deriving DecidableEq

/-- The text of one segment. -/
def Seg.flat : Seg → List Char
  | .lit s => s
  | .br body => '{' :: (body ++ ['}'])
  | .pc body cv => '%' :: '(' :: (body ++ [')', cv])
  | .mark k i => markerStr k i

/-- The text of a segment list. -/
def flatSegs (segs : List Seg) : List Char := (segs.map Seg.flat).flatten

/-- Grammar conditions under which the two extraction passes substitute
exactly the placeholder segments and restoration inverts them: literal runs
avoid the scanner trigger characters `{` and `%` and the marker characters
`_` and `F`; brace bodies avoid braces and `_`; percent bodies avoid
parentheses, `{` and `_`. -/
def segWF : Seg → Bool
  | .lit s => s.all (fun c => c != '{' && c != '%' && c != '_' && c != 'F')
  | .br body => body.all (fun c => c != '{' && c != '}' && c != '_')
  | .pc body cv =>
    isConvChar cv && body.all (fun c => c != '(' && c != ')' && c != '{' && c != '_')
  | .mark _ _ => false

/-- Working-text segments after the brace pass. -/
def seg2WF : Seg → Bool
  | .lit s => s.all (fun c => c != '{' && c != '%' && c != '_' && c != 'F')
  | .br _ => false
  | .pc body cv =>
    isConvChar cv && body.all (fun c => c != '(' && c != ')' && c != '{' && c != '_')
  | .mark _ _ => true

/-- Working-text segments during restoration: literal runs without `_` and
not starting with `F`, and markers. -/
def seg3WF : Seg → Bool
  | .lit s => s.all (fun c => c != '_') && headNotF s
  | .br _ => false
  | .pc _ _ => false
  | .mark _ _ => true

/-- Brace pass on segments: brace placeholders become brace markers,
numbered from `i` on in order. -/
def braceSubSegs : Nat → List Seg → List Seg
  | _, [] => []
  | i, .br _ :: rest => .mark .brace i :: braceSubSegs (i + 1) rest
  | i, s :: rest => s :: braceSubSegs i rest

/-- Percent pass on segments. -/
def percentSubSegs : Nat → List Seg → List Seg
  | _, [] => []
  | i, .pc _ _ :: rest => .mark .percent i :: percentSubSegs (i + 1) rest
  | i, s :: rest => s :: percentSubSegs i rest

/-- The brace placeholders of a segment list, in order. -/
def braceList : List Seg → List (List Char)
  | [] => []
  | .br body :: rest => ('{' :: (body ++ ['}'])) :: braceList rest
  | _ :: rest => braceList rest

/-- The percent placeholders of a segment list, in order. -/
def percentList : List Seg → List (List Char)
  | [] => []
  | .pc body cv :: rest => ('%' :: '(' :: (body ++ [')', cv])) :: percentList rest
  | _ :: rest => percentList rest

/-- The restore entries of the brace pass: marker kind, marker index, and
the original placeholder text. -/
def braceEntriesFrom : Nat → List Seg → List (MKind × Nat × List Char)
  | _, [] => []
  | i, .br body :: rest =>
    (.brace, i, '{' :: (body ++ ['}'])) :: braceEntriesFrom (i + 1) rest
  | i, _ :: rest => braceEntriesFrom i rest

/-- The restore entries of the percent pass. -/
def percentEntriesFrom : Nat → List Seg → List (MKind × Nat × List Char)
  | _, [] => []
  | i, .pc body cv :: rest =>
    (.percent, i, '%' :: '(' :: (body ++ [')', cv])) :: percentEntriesFrom (i + 1) rest
  | i, _ :: rest => percentEntriesFrom i rest

/-- An entry list rendered as a (marker string, placeholder) map. -/
def entriesToMap (L : List (MKind × Nat × List Char)) : List (List Char × List Char) :=
  L.map (fun e => (markerStr e.1 e.2.1, e.2.2))

/-- One restore substitution on one segment: the marker `(k, i)` becomes
the literal `v`. -/
def substMark1 (k : MKind) (i : Nat) (v : List Char) : Seg → Seg
  | .mark k2 i2 => if k2 = k ∧ i2 = i then .lit v else .mark k2 i2
  | s => s

/-- One restore substitution on a segment list. -/
def substMark (k : MKind) (i : Nat) (v : List Char) (segs : List Seg) : List Seg :=
  segs.map (substMark1 k i v)

/-- All restore substitutions of an entry list, applied in order. -/
def substMarks : List (MKind × Nat × List Char) → List Seg → List Seg
  | [], segs => segs
  | e :: L, segs => substMarks L (substMark e.1 e.2.1 e.2.2 segs)

/-- The restore substitutions of an entry list on one segment. -/
def substList (L : List (MKind × Nat × List Char)) (s : Seg) : Seg :=
  L.foldl (fun s2 e => substMark1 e.1 e.2.1 e.2.2 s2) s

/-! ### Theorems -/

example :
    extractFormatPlaceholders "Hi \x7bname\x7d!".data =
      ("Hi __FORMAT_BRACE_0__!".data, [("__FORMAT_BRACE_0__".data, "\x7bname\x7d".data)]) := by
  decide

example :
    (extractFormatPlaceholders "a %(n)s b".data).1 = "a __FORMAT_PERCENT_0__ b".data := by
  decide

example :
    restoreFormatPlaceholders
      (extractFormatPlaceholders "Hi \x7bname\x7d %(n)s!".data).1
      (extractFormatPlaceholders "Hi \x7bname\x7d %(n)s!".data).2 =
      "Hi \x7bname\x7d %(n)s!".data := by
  decide

example :
    restoreFormatPlaceholders
      (extractFormatPlaceholders "%(\x7bx\x7d)s".data).1
      (extractFormatPlaceholders "%(\x7bx\x7d)s".data).2 ≠
      "%(\x7bx\x7d)s".data := by
  decide

theorem idxFrom_nil (n : Nat) : idxFrom n [] = [] := rfl

theorem idxFrom_cons (n : Nat) (t : List Char) (ts : List (List Char)) :
    idxFrom n (t :: ts) =
      if nonBlank t then n :: idxFrom (n + 1) ts else idxFrom (n + 1) ts := by
  by_cases h : nonBlank t <;> simp [idxFrom, List.enumFrom, h]

theorem nonEmptyIndicesOf_eq_idxFrom (texts : List (List Char)) :
    nonEmptyIndicesOf texts = idxFrom 0 texts := rfl

theorem idxFrom_ge (ts : List (List Char)) : ∀ n i, i ∈ idxFrom n ts → n ≤ i := by
  induction ts with
  | nil => intro n i h; simp [idxFrom_nil] at h
  | cons t ts ih =>
    intro n i h
    rw [idxFrom_cons] at h
    by_cases hb : nonBlank t
    · rw [if_pos hb] at h
      rcases List.mem_cons.mp h with h | h
      · omega
      · have := ih (n + 1) i h; omega
    · rw [if_neg hb] at h
      have := ih (n + 1) i h; omega

theorem idxFrom_pairwise (ts : List (List Char)) :
    ∀ n, (idxFrom n ts).Pairwise (· < ·) := by
  induction ts with
  | nil => intro n; simp [idxFrom_nil]
  | cons t ts ih =>
    intro n
    rw [idxFrom_cons]
    by_cases hb : nonBlank t
    · rw [if_pos hb]
      refine List.pairwise_cons.mpr ⟨fun i hi => ?_, ih (n + 1)⟩
      have := idxFrom_ge ts (n + 1) i hi; omega
    · rw [if_neg hb]; exact ih (n + 1)

theorem idxFrom_get?_spec (ts : List (List Char)) :
    ∀ n r i, (idxFrom n ts).get? r = some i →
      n ≤ i ∧ i - n < ts.length ∧ nonBlank (ts.getD (i - n) []) = true := by
  induction ts with
  | nil => intro n r i h; simp [idxFrom_nil] at h
  | cons t ts ih =>
    intro n r i h
    rw [idxFrom_cons] at h
    by_cases hb : nonBlank t
    · rw [if_pos hb] at h
      cases r with
      | zero =>
        simp at h
        subst h
        simpa using hb
      | succ r =>
        simp only [List.get?_cons_succ] at h
        obtain ⟨h1, h2, h3⟩ := ih (n + 1) r i h
        refine ⟨by omega, by simp only [List.length_cons]; omega, ?_⟩
        have he : i - n = (i - (n + 1)) + 1 := by omega
        rw [he, List.getD_cons_succ]
        exact h3
    · rw [if_neg hb] at h
      obtain ⟨h1, h2, h3⟩ := ih (n + 1) r i h
      refine ⟨by omega, by simp only [List.length_cons]; omega, ?_⟩
      have he : i - n = (i - (n + 1)) + 1 := by omega
      rw [he, List.getD_cons_succ]
      exact h3

theorem idxFrom_mem_nonBlank (ts : List (List Char)) :
    ∀ n j, j < ts.length → nonBlank (ts.getD j []) = true →
      ∃ r, (idxFrom n ts).get? r = some (n + j) := by
  induction ts with
  | nil => intro n j h; simp at h
  | cons t ts ih =>
    intro n j hj hb
    rw [idxFrom_cons]
    cases j with
    | zero =>
      rw [List.getD_cons_zero] at hb
      rw [if_pos hb]
      exact ⟨0, by simp⟩
    | succ j =>
      rw [List.getD_cons_succ] at hb
      obtain ⟨r, hr⟩ := ih (n + 1) j (by simpa using hj) hb
      have he : n + 1 + j = n + (j + 1) := by omega
      rw [he] at hr
      by_cases hbt : nonBlank t
      · rw [if_pos hbt]
        exact ⟨r + 1, by simpa using hr⟩
      · rw [if_neg hbt]
        exact ⟨r, hr⟩

theorem idxFrom_spec_of_mem (ts : List (List Char)) (n i : Nat)
    (h : i ∈ idxFrom n ts) :
    n ≤ i ∧ i - n < ts.length ∧ nonBlank (ts.getD (i - n) []) = true := by
  obtain ⟨r, hr⟩ := List.get?_of_mem h
  exact idxFrom_get?_spec ts n r i hr

theorem setFold_length {α : Type} (ps : List (Nat × α)) :
    ∀ init : List α, (setFold ps init).length = init.length := by
  induction ps with
  | nil => intro init; rfl
  | cons p ps ih =>
    intro init
    show (setFold ps (init.set p.1 p.2)).length = init.length
    rw [ih]; simp

theorem setFold_get?_not_mem {α : Type} (ps : List (Nat × α)) :
    ∀ (init : List α) (j : Nat), (∀ p ∈ ps, p.1 ≠ j) →
      (setFold ps init).get? j = init.get? j := by
  induction ps with
  | nil => intro init j _; rfl
  | cons p ps ih =>
    intro init j h
    have h1 : p.1 ≠ j := h p (by simp)
    show (setFold ps (init.set p.1 p.2)).get? j = init.get? j
    rw [ih _ j (fun q hq => h q (by simp [hq]))]
    exact List.get?_set_ne p.2 init h1

theorem setFold_get?_mem {α : Type} (ps : List (Nat × α)) :
    ∀ (init : List α) (j : Nat) (v : α),
      ps.Pairwise (fun a b => a.1 ≠ b.1) → (j, v) ∈ ps → j < init.length →
      (setFold ps init).get? j = some v := by
  induction ps with
  | nil => intro init j v _ h; simp at h
  | cons p ps ih =>
    intro init j v hpw hmem hlt
    rw [List.pairwise_cons] at hpw
    rcases List.mem_cons.mp hmem with heq | htail
    · subst heq
      show (setFold ps (init.set j v)).get? j = some v
      rw [setFold_get?_not_mem ps _ j (fun q hq => (hpw.1 q hq).symm)]
      exact List.get?_set_eq_of_lt v hlt
    · exact ih _ j v hpw.2 htail (by simpa using hlt)

theorem enumFrom_map_snd_fn {α β : Type} (g : α → β) :
    ∀ (l : List α) (n : Nat), ((List.enumFrom n l).map (fun p => g p.2)) = l.map g := by
  intro l
  induction l with
  | nil => intro n; rfl
  | cons a l ih => intro n; simp [List.enumFrom, ih]

theorem zip_map_fst {α β : Type} :
    ∀ (l1 : List α) (l2 : List β), (l1.zip l2).map Prod.fst = l1.take l2.length := by
  intro l1
  induction l1 with
  | nil => intro l2; simp
  | cons a l1 ih =>
    intro l2
    cases l2 with
    | nil => simp
    | cons b l2 => simp [ih]

theorem writePairs_keys (texts : List (List Char)) (results : List (List Char)) :
    (writePairs texts results).map Prod.fst =
      (nonEmptyIndicesOf texts).take results.length := by
  show ((((nonEmptyIndicesOf texts).zip results).enum).map _).map Prod.fst = _
  rw [List.map_map]
  have : (Prod.fst ∘ fun p : Nat × (Nat × List Char) =>
      ((p.2.1 : Nat), some (restoreFormatPlaceholders p.2.2
        ((placeholdersListOf texts).getD p.1 [])))) = fun p => p.2.1 := rfl
  rw [this]
  have h2 : (((nonEmptyIndicesOf texts).zip results).enum).map
      (fun p : Nat × (Nat × List Char) => p.2.1) =
      ((nonEmptyIndicesOf texts).zip results).map (fun q => q.1) := by
    exact enumFrom_map_snd_fn (fun q : Nat × List Char => q.1) _ 0
  rw [h2]
  exact zip_map_fst _ _

theorem writePairs_pairwise (texts : List (List Char)) (results : List (List Char)) :
    (writePairs texts results).Pairwise (fun a b => a.1 ≠ b.1) := by
  have hidx : (nonEmptyIndicesOf texts).Pairwise (· < ·) := idxFrom_pairwise texts 0
  have htake : ((nonEmptyIndicesOf texts).take results.length).Pairwise (· < ·) :=
    hidx.sublist (List.take_sublist _ _)
  have hkeys : ((writePairs texts results).map Prod.fst).Pairwise (· < ·) := by
    rw [writePairs_keys]; exact htake
  have := (List.pairwise_map.mp hkeys)
  exact this.imp (fun h => Nat.ne_of_lt h)

theorem translateBatch_out_ok (client : DeepLClient) (texts : List (List Char))
    (sourceLang targetLang : List Char) (results : List (List Char))
    (hok : client.translateMany (submittedTexts texts) sourceLang targetLang =
      .ok results)
    (hne : (nonEmptyTextsOf texts).isEmpty = false) :
    translateBatch client texts sourceLang targetLang =
      { out := setFold (writePairs texts results) (texts.map some),
        calls := [submittedTexts texts], errs := 0 } := by
  simp only [translateBatch, hne, Bool.false_eq_true, if_false, hok]
  congr 1
  rw [setFold, writePairs, List.foldl_map]

theorem extract_fold_split (k : MKind) (l : List (Nat × List Char)) :
    ∀ (a : List Char) (b : List (List Char × List Char)),
      l.foldl (fun acc p =>
        (replaceFirst acc.1 p.2 (markerStr k p.1),
         acc.2 ++ [(markerStr k p.1, p.2)])) (a, b) =
      (l.foldl (fun acc p => replaceFirst acc p.2 (markerStr k p.1)) a,
       b ++ l.map (fun p => (markerStr k p.1, p.2))) := by
  induction l with
  | nil => intro a b; simp
  | cons x l ih => intro a b; simp [ih]

/-- C6: extraction is exactly the two-pass substitution the spec describes:
a brace pass over the original text (zero-based indices in match order, each
match replaced at its first remaining occurrence in the working text), then
a percent pass scanning the brace-substituted text with its own independent
zero-based counter; the map holds the brace entries then the percent
entries in that indexed order. -/
theorem extract_two_pass (text : List Char) :
    extractFormatPlaceholders text = (specProcessedText text, specPlaceholderMap text) := by
  show (percentFinditer ((braceFinditer text).enum.foldl _ (text, [])).1).enum.foldl _
      ((braceFinditer text).enum.foldl _ (text, [])) = _
  rw [extract_fold_split, extract_fold_split]
  simp [specProcessedText, specPlaceholderMap, specBracePassText]

theorem pairwise_lt_get? {l : List Nat} (hp : l.Pairwise (· < ·)) :
    ∀ r1 r2 i1 i2, r1 < r2 → l.get? r1 = some i1 → l.get? r2 = some i2 → i1 < i2 := by
  induction l with
  | nil => intro r1 r2 i1 i2 _ h; simp at h
  | cons a l ih =>
    rw [List.pairwise_cons] at hp
    intro r1 r2 i1 i2 hlt h1 h2
    cases r1 with
    | zero =>
      simp at h1
      subst h1
      cases r2 with
      | zero => omega
      | succ r2 =>
        simp only [List.get?_cons_succ] at h2
        exact hp.1 i2 (List.get?_mem h2)
    | succ r1 =>
      cases r2 with
      | zero => omega
      | succ r2 =>
        simp only [List.get?_cons_succ] at h1 h2
        exact ih hp.2 r1 r2 i1 i2 (by omega) h1 h2

theorem getD_mem_of_lt {α : Type} (l : List α) (j : Nat) (d : α) (h : j < l.length) :
    l.getD j d ∈ l := by
  have h1 : l.getD j d = l[j] := by
    simp [List.getD_eq_getElem?_getD, List.getElem?_eq_getElem h]
  rw [h1]
  exact List.getElem_mem h

theorem map_some_getD {α : Type} (l : List α) (j : Nat) (d : α) (h : j < l.length) :
    (l.map some).getD j none = some (l.getD j d) := by
  simp [List.getD_eq_getElem?_getD, List.getElem?_eq_getElem h]

theorem placeholdersListOf_get? (texts : List (List Char)) (r : Nat) :
    (placeholdersListOf texts).get? r =
      ((nonEmptyIndicesOf texts).get? r).map
        (fun i => (extractFormatPlaceholders (texts.getD i [])).2) := by
  simp [placeholdersListOf, nonEmptyTextsOf, Option.map_map]
  rfl

theorem writePairs_get? (texts results : List (List Char)) (r i : Nat) (w : List Char)
    (hi : (nonEmptyIndicesOf texts).get? r = some i)
    (hw : results.get? r = some w) :
    (writePairs texts results).get? r =
      some (i, some (restoreFormatPlaceholders w
        (extractFormatPlaceholders (texts.getD i [])).2)) := by
  have hz : ((nonEmptyIndicesOf texts).zip results).get? r = some (i, w) :=
    (List.get?_zip_eq_some _ _ (i, w) r).mpr ⟨hi, hw⟩
  have he : (((nonEmptyIndicesOf texts).zip results).enum).get? r = some (r, (i, w)) := by
    show (List.enumFrom 0 _).get? r = _
    rw [List.get?_enumFrom, hz]
    simp
  have hp : (placeholdersListOf texts).getD r [] =
      (extractFormatPlaceholders (texts.getD i [])).2 := by
    rw [List.getD_eq_get?, placeholdersListOf_get?, hi]
    rfl
  rw [writePairs, List.get?_map, he]
  simp only [List.getD_eq_getElem?_getD] at hp
  simp [hp]

theorem nonEmptyTextsOf_isEmpty_of_blank (texts : List (List Char))
    (h : ∀ t ∈ texts, nonBlank t = false) :
    (nonEmptyTextsOf texts).isEmpty = true := by
  have hidx : nonEmptyIndicesOf texts = [] := by
    rcases hq : nonEmptyIndicesOf texts with _ | ⟨i, rest⟩
    · rfl
    · exfalso
      have hmem : i ∈ nonEmptyIndicesOf texts := by rw [hq]; simp
      obtain ⟨_, hlt, hnb⟩ := idxFrom_spec_of_mem texts 0 i hmem
      rw [Nat.sub_zero] at hlt hnb
      rw [h _ (getD_mem_of_lt texts i [] hlt)] at hnb
      cases hnb
  simp [nonEmptyTextsOf, hidx]

/-- C2: on a successful batched call returning one result per submitted
non-blank text, the output has one slot per input position; blank positions
carry their input verbatim; the non-blank position of rank `r` carries the
placeholder-restored `r`-th provider result for that position's own text;
every non-blank position has such a rank; and an all-blank batch returns the
input list unchanged with no provider call. -/
theorem translateBatch_ok (client : DeepLClient) (texts : List (List Char))
    (sourceLang targetLang : List Char) (results : List (List Char))
    (hok : client.translateMany (submittedTexts texts) sourceLang targetLang =
      Except.ok results)
    (hlen : results.length = (nonEmptyIndicesOf texts).length) :
    (translateBatch client texts sourceLang targetLang).out.length = texts.length ∧
    (∀ j, j < texts.length → nonBlank (texts.getD j []) = false →
      (translateBatch client texts sourceLang targetLang).out.getD j none =
        some (texts.getD j [])) ∧
    (∀ r i, (nonEmptyIndicesOf texts).get? r = some i →
      (translateBatch client texts sourceLang targetLang).out.getD i none =
        some (restoreFormatPlaceholders (results.getD r [])
          (extractFormatPlaceholders (texts.getD i [])).2)) ∧
    (∀ j, j < texts.length → nonBlank (texts.getD j []) = true →
      ∃ r, (nonEmptyIndicesOf texts).get? r = some j) ∧
    ((∀ t ∈ texts, nonBlank t = false) →
      translateBatch client texts sourceLang targetLang =
        { out := texts.map some, calls := [], errs := 0 }) := by
  have hfourth : ∀ j, j < texts.length → nonBlank (texts.getD j []) = true →
      ∃ r, (nonEmptyIndicesOf texts).get? r = some j := by
    intro j hj hb
    obtain ⟨r, hr⟩ := idxFrom_mem_nonBlank texts 0 j hj hb
    exact ⟨r, by simpa using hr⟩
  by_cases hne : (nonEmptyTextsOf texts).isEmpty
  · have hout : translateBatch client texts sourceLang targetLang =
        { out := texts.map some, calls := [], errs := 0 } := by
      simp [translateBatch, hne]
    have hidx : nonEmptyIndicesOf texts = [] := by
      have h0 := List.isEmpty_iff.mp hne
      have hlen0 : (nonEmptyIndicesOf texts).length = 0 := by
        have := congrArg List.length h0
        simpa [nonEmptyTextsOf] using this
      exact List.eq_nil_of_length_eq_zero hlen0
    refine ⟨?_, ?_, ?_, hfourth, fun _ => hout⟩
    · rw [hout]; simp
    · intro j hj _
      rw [hout]
      exact map_some_getD texts j [] hj
    · intro r i hi
      rw [hidx] at hi
      simp at hi
  · have hne2 : (nonEmptyTextsOf texts).isEmpty = false := by simpa using hne
    have hout := translateBatch_out_ok client texts sourceLang targetLang results hok hne2
    have hpw := writePairs_pairwise texts results
    refine ⟨?_, ?_, ?_, hfourth, ?_⟩
    · rw [hout]; simp [setFold_length]
    · intro j hj hb
      rw [hout]
      have hnm : ∀ p ∈ writePairs texts results, p.1 ≠ j := by
        intro p hp hpj
        have h1 : p.1 ∈ (writePairs texts results).map Prod.fst :=
          List.mem_map_of_mem _ hp
        rw [writePairs_keys] at h1
        have h2 : p.1 ∈ nonEmptyIndicesOf texts := (List.take_sublist _ _).subset h1
        obtain ⟨_, _, hnb⟩ := idxFrom_spec_of_mem texts 0 p.1 h2
        rw [Nat.sub_zero, hpj, hb] at hnb
        cases hnb
      show (setFold (writePairs texts results) (texts.map some)).getD j none = _
      rw [List.getD_eq_get?, setFold_get?_not_mem _ _ _ hnm, ← List.getD_eq_get?]
      exact map_some_getD texts j [] hj
    · intro r i hi
      rw [hout]
      have hi2 := hi
      rw [List.get?_eq_getElem?] at hi2
      obtain ⟨hrlt, _⟩ := List.getElem?_eq_some.mp hi2
      have hw : results.get? r = some (results.getD r []) := by
        have hr2 : r < results.length := by rw [hlen]; exact hrlt
        simp [List.getD_eq_getElem?_getD, List.getElem?_eq_getElem hr2]
      have hwp := writePairs_get? texts results r i (results.getD r []) hi hw
      have hmem := List.get?_mem hwp
      obtain ⟨_, hilt, _⟩ := idxFrom_get?_spec texts 0 r i hi
      rw [Nat.sub_zero] at hilt
      have hinit : i < (texts.map some).length := by simpa using hilt
      show (setFold (writePairs texts results) (texts.map some)).getD i none = _
      rw [List.getD_eq_get?, setFold_get?_mem _ _ i _ hpw hmem hinit]
      rfl
    · intro hblank
      rw [nonEmptyTextsOf_isEmpty_of_blank texts hblank] at hne2
      cases hne2

/-- Witness for C2 at the batch `["a", " "]` with an echoing client. -/
theorem translateBatch_ok_witness :
    (echoClient.translateMany (submittedTexts ["a".data, " ".data]) "en".data "de".data =
      Except.ok (submittedTexts ["a".data, " ".data])) ∧
    (submittedTexts ["a".data, " ".data]).length =
      (nonEmptyIndicesOf ["a".data, " ".data]).length ∧
    (translateBatch echoClient ["a".data, " ".data] "en".data "de".data).out.getD 0 none =
      some (restoreFormatPlaceholders ((submittedTexts ["a".data, " ".data]).getD 0 [])
        (extractFormatPlaceholders (["a".data, " ".data].getD 0 [])).2) :=
  ⟨rfl, by decide,
   (translateBatch_ok echoClient ["a".data, " ".data] "en".data "de".data
      (submittedTexts ["a".data, " ".data]) rfl (by decide)).2.2.1 0 0 (by decide)⟩

/-- C8: when the provider returns fewer results than there were submitted
non-blank texts (without raising), `translate_batch` returns normally and
the surplus non-blank positions keep their original untranslated input text. -/
theorem translateBatch_shortResults (client : DeepLClient) (texts : List (List Char))
    (sourceLang targetLang : List Char) (results : List (List Char))
    (hok : client.translateMany (submittedTexts texts) sourceLang targetLang =
      Except.ok results)
    (hne : (nonEmptyTextsOf texts).isEmpty = false)
    (hshort : results.length < (nonEmptyIndicesOf texts).length) :
    (translateBatch client texts sourceLang targetLang).errs = 0 ∧
    (∀ r i, results.length ≤ r → (nonEmptyIndicesOf texts).get? r = some i →
      (translateBatch client texts sourceLang targetLang).out.getD i none =
        some (texts.getD i [])) := by
  have hout := translateBatch_out_ok client texts sourceLang targetLang results hok hne
  constructor
  · rw [hout]
  · intro r i hr hi
    rw [hout]
    have hnm : ∀ p ∈ writePairs texts results, p.1 ≠ i := by
      intro p hp hpi
      have h1 : p.1 ∈ (writePairs texts results).map Prod.fst :=
        List.mem_map_of_mem _ hp
      rw [writePairs_keys] at h1
      obtain ⟨r2, hr2⟩ := List.get?_of_mem h1
      have hr2b := hr2
      rw [List.get?_eq_getElem?] at hr2b
      obtain ⟨hr2len, _⟩ := List.getElem?_eq_some.mp hr2b
      have hr2lt : r2 < results.length := by
        simp [List.length_take] at hr2len
        omega
      have hidx2 : (nonEmptyIndicesOf texts).get? r2 = some p.1 := by
        rw [List.get?_eq_getElem?] at hr2 ⊢
        rwa [List.getElem?_take_of_lt hr2lt] at hr2
      have hlt_r : r2 < r := lt_of_lt_of_le hr2lt hr
      have hpw2 : (nonEmptyIndicesOf texts).Pairwise (· < ·) := idxFrom_pairwise texts 0
      have hmono := pairwise_lt_get? hpw2 r2 r p.1 i hlt_r hidx2 hi
      rw [hpi] at hmono
      exact lt_irrefl i hmono
    have hilt : i < texts.length := by
      have hmem := List.get?_mem hi
      obtain ⟨_, hlt, _⟩ := idxFrom_spec_of_mem texts 0 i hmem
      rwa [Nat.sub_zero] at hlt
    show (setFold (writePairs texts results) (texts.map some)).getD i none = _
    rw [List.getD_eq_get?, setFold_get?_not_mem _ _ _ hnm, ← List.getD_eq_get?]
    exact map_some_getD texts i [] hilt

/-- Witness for C8 at the batch `["a", "b"]` and a client returning an empty
result list. -/
theorem translateBatch_shortResults_witness :
    (nonEmptyTextsOf ["a".data, "b".data]).isEmpty = false ∧
    ([] : List (List Char)).length < (nonEmptyIndicesOf ["a".data, "b".data]).length ∧
    (translateBatch shortClient ["a".data, "b".data] "en".data "de".data).out.getD 0 none =
      some "a".data :=
  ⟨by decide, by decide,
   ((translateBatch_shortResults shortClient ["a".data, "b".data] "en".data "de".data []
       rfl (by decide) (by decide)).2 0 0 (by decide) (by decide)).trans (by decide)⟩

/-- C4: a text that is empty or whitespace-only is returned unchanged
immediately, with no provider call, no diagnostic output, and without the
placeholder codec being involved (the outcome is the same for every codec
and every client). -/
theorem translateText_blank (client : DeepLClient) (text sourceLang targetLang : List Char)
    (h : nonBlank text = false) :
    translateText client text sourceLang targetLang =
      { out := some text, calls := [], errs := 0 } ∧
    ∀ eF rF client2, translateTextWith eF rF client2 text sourceLang targetLang =
      { out := some text, calls := [], errs := 0 } := by
  refine ⟨?_, fun eF rF client2 => ?_⟩
  · simp [translateText, translateTextWith, h]
  · simp [translateTextWith, h]

/-- Witness for C4 at the whitespace-only text `"   "`. -/
theorem translateText_blank_witness :
    nonBlank "   ".data = false ∧
    translateText errClient "   ".data "en".data "de".data =
      { out := some "   ".data, calls := [], errs := 0 } :=
  ⟨by decide,
   (translateText_blank errClient "   ".data "en".data "de".data (by decide)).1⟩

/-- C5: for a non-blank text, a provider exception inside `translate_text`
yields `None`, one diagnostic failure report, and no exception escapes (the
model is a total function). -/
theorem translateText_providerError (client : DeepLClient)
    (text sourceLang targetLang : List Char)
    (hnb : nonBlank text = true)
    (herr : client.translateOne (extractFormatPlaceholders text).1 sourceLang targetLang =
      .error ()) :
    translateText client text sourceLang targetLang =
      { out := none, calls := [(extractFormatPlaceholders text).1], errs := 1 } := by
  simp [translateText, translateTextWith, hnb, herr]

/-- Witness for C5 at text `"abc"` and the always-raising client. -/
theorem translateText_providerError_witness :
    nonBlank "abc".data = true ∧
    translateText errClient "abc".data "en".data "de".data =
      { out := none, calls := [(extractFormatPlaceholders "abc".data).1], errs := 1 } :=
  ⟨by decide,
   translateText_providerError errClient "abc".data "en".data "de".data
     (by decide) rfl⟩

/-- C3: with at least one non-blank entry, a provider exception on the
batched call degrades the whole result: the returned list has one `None`
per input position (blank positions included), the exception is absorbed,
and one failure report goes to the diagnostic channel. -/
theorem translateBatch_providerError (client : DeepLClient)
    (texts : List (List Char)) (sourceLang targetLang : List Char)
    (hnb : (nonEmptyTextsOf texts).isEmpty = false)
    (herr : client.translateMany (submittedTexts texts) sourceLang targetLang =
      .error ()) :
    translateBatch client texts sourceLang targetLang =
      { out := texts.map (fun _ => none), calls := [submittedTexts texts], errs := 1 } ∧
    (translateBatch client texts sourceLang targetLang).out.length = texts.length := by
  refine ⟨?_, ?_⟩ <;> simp [translateBatch, hnb, herr]

/-- Witness for C3 at the batch `["hi", " "]` and the always-raising client. -/
theorem translateBatch_providerError_witness :
    (nonEmptyTextsOf ["hi".data, " ".data]).isEmpty = false ∧
    translateBatch errClient ["hi".data, " ".data] "en".data "de".data =
      { out := [none, none], calls := [submittedTexts ["hi".data, " ".data]], errs := 1 } :=
  ⟨by decide,
   ((translateBatch_providerError errClient ["hi".data, " ".data] "en".data "de".data
       (by decide) rfl).1).trans (by decide)⟩

/-- C9: in the `translate_po_file` loop, an untranslated non-plural entry
whose translation comes back as the empty string is left unchanged with one
failure notice, exactly as when the translation comes back as `None`. -/
theorem processEntry_emptyTranslation (client client2 : DeepLClient)
    (sourceLang targetLang : List Char) (e : POEntry)
    (h1 : e.isTranslated = false) (h2 : e.msgidPlural = [])
    (hres : (translateText client e.msgid sourceLang targetLang).out = some [])
    (hres2 : (translateText client2 e.msgid sourceLang targetLang).out = none) :
    processEntry client sourceLang targetLang e = (e, 1) ∧
    processEntry client2 sourceLang targetLang e = (e, 1) := by
  constructor <;> simp [processEntry, h1, h2, hres, hres2]

/-- Witness for C9 at the entry `msgid = "x"` with an empty-translating and
an always-raising client. -/
theorem processEntry_emptyTranslation_witness :
    (⟨"x".data, [], [], false⟩ : POEntry).isTranslated = false ∧
    (translateText blankClient "x".data "en".data "de".data).out = some [] ∧
    processEntry blankClient "en".data "de".data ⟨"x".data, [], [], false⟩ =
      (⟨"x".data, [], [], false⟩, 1) :=
  ⟨rfl, by decide,
   (processEntry_emptyTranslation blankClient errClient "en".data "de".data
      ⟨"x".data, [], [], false⟩ rfl rfl (by decide) (by decide)).1⟩

/-- C10: `translate_po_file` returns the success value `true` whenever
loading succeeds and saving succeeds, for every client, however many
per-entry translations fail. -/
theorem translatePoFile_loadSaveOk (client : DeepLClient) (entries : List POEntry)
    (sourceLang targetLang : List Char) :
    (translatePoFile client (Except.ok entries) true sourceLang targetLang).1 = true := by
  simp only [translatePoFile]
  split <;> simp

theorem startsWith_head_eq (a b : Char) (as bs : List Char)
    (h : listStartsWith (a :: as) (b :: bs) = true) :
    a = b ∧ listStartsWith as bs = true := by
  simpa [listStartsWith] using h

theorem startsWith_cons_false_of_ne (a b : Char) (as bs : List Char) (h : a ≠ b) :
    listStartsWith (a :: as) (b :: bs) = false := by
  simp [listStartsWith, h]

theorem startsWith_self_append (p t : List Char) : listStartsWith p (p ++ t) = true := by
  induction p with
  | nil => rfl
  | cons c p ih => simp [listStartsWith, ih]

theorem startsWith_trans (a : List Char) : ∀ b t : List Char,
    listStartsWith a b = true → listStartsWith b t = true →
    listStartsWith a t = true := by
  induction a with
  | nil => intro b t _ _; rfl
  | cons c a ih =>
    intro b t h1 h2
    cases b with
    | nil => simp [listStartsWith] at h1
    | cons cb b =>
      obtain ⟨hcb, h1b⟩ := startsWith_head_eq _ _ _ _ h1
      cases t with
      | nil => simp [listStartsWith] at h2
      | cons ct t =>
        obtain ⟨hct, h2b⟩ := startsWith_head_eq _ _ _ _ h2
        subst hcb
        subst hct
        simp [listStartsWith, ih b t h1b h2b]

theorem startsWith_append_both (p x y : List Char) :
    listStartsWith (p ++ x) (p ++ y) = listStartsWith x y := by
  induction p with
  | nil => rfl
  | cons c p ih => simp [listStartsWith, ih]

theorem digitChar_digit (d : Nat) : isDigitCh (digitChar d) = true := by
  unfold digitChar
  split <;> rfl

theorem isDigitCh_ne (c : Char) (h : isDigitCh c = true) :
    c ≠ '_' ∧ c ≠ '{' ∧ c ≠ '}' ∧ c ≠ '%' ∧ c ≠ 'F' ∧ c ≠ '(' ∧ c ≠ ')' := by
  simp [isDigitCh] at h
  rcases h with ((((((((rfl | rfl) | rfl) | rfl) | rfl) | rfl) | rfl) | rfl) | rfl) | rfl <;>
    decide

theorem natStrGo_digits (fuel : Nat) : ∀ n acc, (∀ c ∈ acc, isDigitCh c = true) →
    ∀ c ∈ natStrGo fuel n acc, isDigitCh c = true := by
  induction fuel with
  | zero =>
    intro n acc hacc c hc
    rw [natStrGo] at hc
    rcases List.mem_cons.mp hc with rfl | hc
    · exact digitChar_digit n
    · exact hacc c hc
  | succ fuel ih =>
    intro n acc hacc c hc
    rw [natStrGo] at hc
    by_cases hn : n < 10
    · rw [if_pos hn] at hc
      rcases List.mem_cons.mp hc with rfl | hc
      · exact digitChar_digit n
      · exact hacc c hc
    · rw [if_neg hn] at hc
      refine ih (n / 10) _ ?_ c hc
      intro c2 hc2
      rcases List.mem_cons.mp hc2 with rfl | hc2
      · exact digitChar_digit _
      · exact hacc c2 hc2

theorem natStr_digits (n : Nat) : ∀ c ∈ natStr n, isDigitCh c = true :=
  natStrGo_digits n n [] (by simp)

theorem natStrGo_ne_nil (fuel : Nat) : ∀ n acc, natStrGo fuel n acc ≠ [] := by
  induction fuel with
  | zero => intro n acc; rw [natStrGo]; simp
  | succ fuel ih =>
    intro n acc
    rw [natStrGo]
    by_cases hn : n < 10
    · simp [hn]
    · rw [if_neg hn]; exact ih _ _

theorem natStr_head_digit (n : Nat) :
    ∃ c cs, natStr n = c :: cs ∧ isDigitCh c = true := by
  rcases hq : natStr n with _ | ⟨c, cs⟩
  · exact absurd hq (natStrGo_ne_nil n n [])
  · exact ⟨c, cs, rfl, natStr_digits n c (by rw [hq]; simp)⟩

theorem digitChar_toNat (d : Nat) (h : d < 10) : (digitChar d).toNat - 48 = d := by
  interval_cases d <;> decide

theorem natStrGo_decVal (fuel : Nat) : ∀ n acc, n ≤ fuel →
    List.foldl (fun a c => 10 * a + (c.toNat - 48)) 0 (natStrGo fuel n acc) =
    List.foldl (fun a c => 10 * a + (c.toNat - 48)) n acc := by
  induction fuel with
  | zero =>
    intro n acc hn
    have hn0 : n = 0 := by omega
    subst hn0
    rw [natStrGo, List.foldl_cons, digitChar_toNat 0 (by omega)]
  | succ fuel ih =>
    intro n acc hn
    rw [natStrGo]
    by_cases h10 : n < 10
    · rw [if_pos h10, List.foldl_cons, digitChar_toNat n h10]
      have he : 10 * 0 + n = n := by omega
      rw [he]
    · rw [if_neg h10]
      rw [ih (n / 10) _ (by omega), List.foldl_cons, digitChar_toNat (n % 10) (by omega)]
      congr 1
      omega

theorem decVal_natStr (n : Nat) : decVal (natStr n) = n := by
  have h := natStrGo_decVal n n [] (le_refl n)
  simpa [decVal, natStr] using h

theorem natStr_inj (a b : Nat) (h : natStr a = natStr b) : a = b := by
  have ha := decVal_natStr a
  rw [h, decVal_natStr b] at ha
  omega

theorem digits_startsWith_eq (d1 : List Char) : ∀ (d2 x y : List Char),
    (∀ c ∈ d1, isDigitCh c = true) → (∀ c ∈ d2, isDigitCh c = true) →
    listStartsWith (d1 ++ '_' :: x) (d2 ++ '_' :: y) = true → d1 = d2 := by
  induction d1 with
  | nil =>
    intro d2 x y _ hd2 h
    cases d2 with
    | nil => rfl
    | cons c2 d2 =>
      obtain ⟨heq, _⟩ := startsWith_head_eq _ _ _ _ (by simpa using h)
      exact absurd heq.symm (isDigitCh_ne c2 (hd2 c2 (by simp))).1
  | cons c1 d1 ih =>
    intro d2 x y hd1 hd2 h
    cases d2 with
    | nil =>
      obtain ⟨heq, _⟩ := startsWith_head_eq _ _ _ _ (by simpa using h)
      exact absurd heq (isDigitCh_ne c1 (hd1 c1 (by simp))).1
    | cons c2 d2 =>
      obtain ⟨heq, hrest⟩ := startsWith_head_eq _ _ _ _ (by simpa using h)
      subst heq
      rw [ih d2 x y (fun c hc => hd1 c (by simp [hc])) (fun c hc => hd2 c (by simp [hc]))
        hrest]

theorem marker_startsWith_marker (k k2 : MKind) (i j : Nat) (b : List Char)
    (h : listStartsWith (markerStr k i) (markerStr k2 j ++ b) = true) :
    k = k2 ∧ i = j := by
  cases k <;> cases k2
  · refine ⟨rfl, ?_⟩
    rw [markerStr, markerStr] at h
    simp only [List.append_assoc] at h
    rw [startsWith_append_both] at h
    have heq := digits_startsWith_eq (natStr i) (natStr j) ['_'] ('_' :: b)
      (natStr_digits i) (natStr_digits j) (by simpa using h)
    exact natStr_inj i j heq
  · exfalso
    rw [markerStr, markerStr, markerLead, markerLead] at h
    simp [listStartsWith] at h
  · exfalso
    rw [markerStr, markerStr, markerLead, markerLead] at h
    simp [listStartsWith] at h
  · refine ⟨rfl, ?_⟩
    rw [markerStr, markerStr] at h
    simp only [List.append_assoc] at h
    rw [startsWith_append_both] at h
    have heq := digits_startsWith_eq (natStr i) (natStr j) ['_'] ('_' :: b)
      (natStr_digits i) (natStr_digits j) (by simpa using h)
    exact natStr_inj i j heq

theorem braceBody_length (l : List Char) :
    ∀ body after, braceBody l = some (body, after) → after.length < l.length := by
  induction l with
  | nil => intro body after h; simp [braceBody] at h
  | cons c rest ih =>
    intro body after h
    simp only [braceBody] at h
    by_cases hc : c = '}'
    · rw [if_pos hc] at h
      simp at h
      rw [← h.2]
      simp
    · rw [if_neg hc] at h
      by_cases hb : c = '{'
      · rw [if_pos hb] at h; cases h
      · rw [if_neg hb] at h
        cases hrec : braceBody rest with
        | none => rw [hrec] at h; cases h
        | some p =>
          obtain ⟨p1, p2⟩ := p
          rw [hrec] at h
          simp at h
          have hlt := ih p1 p2 hrec
          rw [← h.2]
          simp
          omega

theorem parenBody_length (l : List Char) :
    ∀ body after, parenBody l = some (body, after) → after.length < l.length := by
  induction l with
  | nil => intro body after h; simp [parenBody] at h
  | cons c rest ih =>
    intro body after h
    simp only [parenBody] at h
    by_cases hc : c = ')'
    · rw [if_pos hc] at h
      simp at h
      rw [← h.2]
      simp
    · rw [if_neg hc] at h
      by_cases hb : c = '('
      · rw [if_pos hb] at h; cases h
      · rw [if_neg hb] at h
        cases hrec : parenBody rest with
        | none => rw [hrec] at h; cases h
        | some p =>
          obtain ⟨p1, p2⟩ := p
          rw [hrec] at h
          simp at h
          have hlt := ih p1 p2 hrec
          rw [← h.2]
          simp
          omega

theorem old_length_pos (old : List Char) (hne : old ≠ []) : 1 ≤ old.length := by
  cases old with
  | nil => exact absurd rfl hne
  | cons => simp

theorem replaceAllGo_suff (old new : List Char) (hne : old ≠ []) :
    ∀ f1 f2 s, s.length ≤ f1 → s.length ≤ f2 →
      replaceAllGo old new f1 s = replaceAllGo old new f2 s := by
  have hol := old_length_pos old hne
  intro f1
  induction f1 with
  | zero =>
    intro f2 s h1 _
    have hs : s = [] := by
      cases s with
      | nil => rfl
      | cons c r => simp at h1
    subst hs
    cases f2 <;> rfl
  | succ f1 ih =>
    intro f2 s h1 h2
    cases s with
    | nil => cases f2 <;> rfl
    | cons c rest =>
      cases f2 with
      | zero => simp at h2
      | succ f2 =>
        rw [replaceAllGo, replaceAllGo]
        by_cases hs : listStartsWith old (c :: rest) = true
        · rw [if_pos hs, if_pos hs]
          congr 1
          apply ih
          · simp only [List.length_drop, List.length_cons]
            simp at h1
            omega
          · simp only [List.length_drop, List.length_cons]
            simp at h2
            omega
        · rw [if_neg hs, if_neg hs]
          congr 1
          apply ih
          · simp at h1; omega
          · simp at h2; omega

theorem replaceAll_nil (old new : List Char) (hne : old ≠ []) :
    replaceAll [] old new = [] := by
  rw [replaceAll, if_neg hne]
  rfl

theorem replaceAll_cons (c : Char) (rest old new : List Char) (hne : old ≠ []) :
    replaceAll (c :: rest) old new =
      if listStartsWith old (c :: rest) = true then
        new ++ replaceAll ((c :: rest).drop old.length) old new
      else c :: replaceAll rest old new := by
  have hol := old_length_pos old hne
  rw [replaceAll, if_neg hne]
  show replaceAllGo old new (rest.length + 1) (c :: rest) = _
  rw [replaceAllGo]
  by_cases hs : listStartsWith old (c :: rest) = true
  · rw [if_pos hs, if_pos hs]
    congr 1
    rw [replaceAll, if_neg hne]
    apply replaceAllGo_suff old new hne
    · simp only [List.length_drop, List.length_cons]; omega
    · exact le_refl _
  · rw [if_neg hs, if_neg hs]
    congr 1
    rw [replaceAll, if_neg hne]

theorem braceFinditerGo_suff :
    ∀ f1 f2 l, l.length ≤ f1 → l.length ≤ f2 →
      braceFinditerGo f1 l = braceFinditerGo f2 l := by
  intro f1
  induction f1 with
  | zero =>
    intro f2 l h1 _
    have hl : l = [] := by
      cases l with
      | nil => rfl
      | cons c r => simp at h1
    subst hl
    cases f2 <;> rfl
  | succ f1 ih =>
    intro f2 l h1 h2
    cases l with
    | nil => cases f2 <;> rfl
    | cons c rest =>
      cases f2 with
      | zero => simp at h2
      | succ f2 =>
        rw [braceFinditerGo, braceFinditerGo]
        simp only [List.length_cons] at h1 h2
        by_cases hc : c = '{'
        · rw [if_pos hc, if_pos hc]
          cases hb : braceBody rest with
          | some p =>
            obtain ⟨body, after⟩ := p
            have hlt := braceBody_length rest body after hb
            simp only
            congr 1
            apply ih <;> omega
          | none =>
            simp only
            apply ih <;> omega
        · rw [if_neg hc, if_neg hc]
          apply ih <;> omega

theorem braceFinditer_nil : braceFinditer [] = [] := rfl

theorem braceFinditer_cons (c : Char) (rest : List Char) :
    braceFinditer (c :: rest) =
      if c = '{' then
        match braceBody rest with
        | some (body, after) => ('{' :: (body ++ ['}'])) :: braceFinditer after
        | none => braceFinditer rest
      else braceFinditer rest := by
  show braceFinditerGo (rest.length + 1) (c :: rest) = _
  rw [braceFinditerGo]
  by_cases hc : c = '{'
  · rw [if_pos hc, if_pos hc]
    cases hb : braceBody rest with
    | some p =>
      obtain ⟨body, after⟩ := p
      have hlt := braceBody_length rest body after hb
      simp only
      congr 1
      exact braceFinditerGo_suff rest.length after.length after (by omega) (le_refl _)
    | none =>
      simp only
      rfl
  · rw [if_neg hc, if_neg hc]
    rfl

theorem percentFinditerGo_nil (f : Nat) : percentFinditerGo f [] = [] := by
  cases f <;> rfl

theorem percentTry_length (rest : List Char) :
    ∀ m after, percentTry rest = some (m, after) → after.length < rest.length := by
  intro m after h
  cases rest with
  | nil => simp [percentTry] at h
  | cons c2 rest2 =>
    simp only [percentTry] at h
    by_cases hc2 : c2 = '('
    · rw [if_pos hc2] at h
      cases hp : parenBody rest2 with
      | some p =>
        obtain ⟨body, tl⟩ := p
        cases tl with
        | nil => rw [hp] at h; cases h
        | cons cv af =>
          have hlt := parenBody_length rest2 body (cv :: af) hp
          rw [hp] at h
          simp only [] at h
          by_cases hcv : isConvChar cv = true
          · rw [if_pos hcv] at h
            simp at h
            rw [← h.2]
            simp at hlt
            simp
            omega
          · rw [if_neg hcv] at h; cases h
      | none => rw [hp] at h; cases h
    · rw [if_neg hc2] at h; cases h

theorem percentFinditerGo_suff :
    ∀ f1 f2 l, l.length ≤ f1 → l.length ≤ f2 →
      percentFinditerGo f1 l = percentFinditerGo f2 l := by
  intro f1
  induction f1 with
  | zero =>
    intro f2 l h1 _
    have hl : l = [] := by
      cases l with
      | nil => rfl
      | cons c r => simp at h1
    subst hl
    cases f2 <;> rfl
  | succ f1 ih =>
    intro f2 l h1 h2
    cases l with
    | nil => cases f2 <;> rfl
    | cons c rest =>
      cases f2 with
      | zero => simp at h2
      | succ f2 =>
        rw [percentFinditerGo, percentFinditerGo]
        simp only [List.length_cons] at h1 h2
        by_cases hc : c = '%'
        · rw [if_pos hc, if_pos hc]
          cases ht : percentTry rest with
          | some p =>
            obtain ⟨m, after⟩ := p
            have hlt := percentTry_length rest m after ht
            simp only
            congr 1
            apply ih <;> omega
          | none =>
            simp only
            apply ih <;> omega
        · rw [if_neg hc, if_neg hc]
          apply ih <;> omega

theorem percentFinditer_nil : percentFinditer [] = [] := rfl

theorem percentFinditer_skip1 (c : Char) (t : List Char) (hc : c ≠ '%') :
    percentFinditer (c :: t) = percentFinditer t := by
  show percentFinditerGo (t.length + 1) (c :: t) = _
  rw [percentFinditerGo, if_neg hc]
  rfl

theorem parenBody_clean (t : List Char) (body : List Char)
    (h : ∀ c ∈ body, c ≠ '(' ∧ c ≠ ')') :
    parenBody (body ++ ')' :: t) = some (body, t) := by
  induction body with
  | nil => simp [parenBody]
  | cons c body ih =>
    have hc := h c (by simp)
    have hstep : (c :: body) ++ ')' :: t = c :: (body ++ ')' :: t) := rfl
    rw [hstep]
    simp only [parenBody, if_neg hc.2, if_neg hc.1]
    rw [ih (fun c2 hc2 => h c2 (by simp [hc2]))]

theorem braceBody_clean (t : List Char) (body : List Char)
    (h : ∀ c ∈ body, c ≠ '{' ∧ c ≠ '}') :
    braceBody (body ++ '}' :: t) = some (body, t) := by
  induction body with
  | nil => simp [braceBody]
  | cons c body ih =>
    have hc := h c (by simp)
    have hstep : (c :: body) ++ '}' :: t = c :: (body ++ '}' :: t) := rfl
    rw [hstep]
    simp only [braceBody, if_neg hc.2, if_neg hc.1]
    rw [ih (fun c2 hc2 => h c2 (by simp [hc2]))]

theorem percentTry_clean (body : List Char) (cv : Char) (t : List Char)
    (hb : ∀ c ∈ body, c ≠ '(' ∧ c ≠ ')') (hcv : isConvChar cv = true) :
    percentTry ('(' :: (body ++ [')', cv] ++ t)) =
      some ('%' :: '(' :: (body ++ [')', cv]), t) := by
  simp only [percentTry]
  have hshape : body ++ [')', cv] ++ t = body ++ ')' :: cv :: t := by simp
  rw [hshape, parenBody_clean (cv :: t) body hb]
  simp [hcv]

theorem percentFinditer_consume (body : List Char) (cv : Char) (t : List Char)
    (hb : ∀ c ∈ body, c ≠ '(' ∧ c ≠ ')') (hcv : isConvChar cv = true) :
    percentFinditer ('%' :: '(' :: (body ++ [')', cv] ++ t)) =
      ('%' :: '(' :: (body ++ [')', cv])) :: percentFinditer t := by
  show percentFinditerGo (('(' :: (body ++ [')', cv] ++ t)).length + 1)
      ('%' :: '(' :: (body ++ [')', cv] ++ t)) = _
  rw [percentFinditerGo, if_pos rfl, percentTry_clean body cv t hb hcv]
  simp only
  congr 1
  apply percentFinditerGo_suff
  · simp only [List.length_cons, List.length_append]
    omega
  · exact le_refl _

theorem braceFinditer_skip1 (c : Char) (t : List Char) (hc : c ≠ '{') :
    braceFinditer (c :: t) = braceFinditer t := by
  rw [braceFinditer_cons, if_neg hc]

theorem braceFinditer_consume (body : List Char) (t : List Char)
    (hb : ∀ c ∈ body, c ≠ '{' ∧ c ≠ '}') :
    braceFinditer ('{' :: (body ++ '}' :: t)) =
      ('{' :: (body ++ ['}'])) :: braceFinditer t := by
  rw [braceFinditer_cons, if_pos rfl, braceBody_clean t body hb]

theorem percentFinditer_skip (s : List Char) (t : List Char)
    (h : ∀ c ∈ s, c ≠ '%') : percentFinditer (s ++ t) = percentFinditer t := by
  induction s with
  | nil => rfl
  | cons c s ih =>
    rw [List.cons_append, percentFinditer_skip1 c _ (h c (by simp))]
    exact ih (fun c2 hc2 => h c2 (by simp [hc2]))

theorem braceFinditer_skip (s : List Char) (t : List Char)
    (h : ∀ c ∈ s, c ≠ '{') : braceFinditer (s ++ t) = braceFinditer t := by
  induction s with
  | nil => rfl
  | cons c s ih =>
    rw [List.cons_append, braceFinditer_skip1 c _ (h c (by simp))]
    exact ih (fun c2 hc2 => h c2 (by simp [hc2]))

theorem flatSegs_nil : flatSegs [] = [] := rfl

theorem flatSegs_cons (s : Seg) (rest : List Seg) :
    flatSegs (s :: rest) = Seg.flat s ++ flatSegs rest := by
  simp [flatSegs]

theorem markerStr_chars (k : MKind) (i : Nat) :
    ∀ c ∈ markerStr k i, c ≠ '{' ∧ c ≠ '}' ∧ c ≠ '%' ∧ c ≠ '(' ∧ c ≠ ')' := by
  intro c hc
  rw [markerStr] at hc
  simp only [List.append_assoc, List.mem_append] at hc
  rcases hc with hl | hd | ht
  · cases k
    · rw [markerLead] at hl
      fin_cases hl <;> decide
    · rw [markerLead] at hl
      fin_cases hl <;> decide
  · have hdig := isDigitCh_ne c (natStr_digits i c hd)
    exact ⟨hdig.2.1, hdig.2.2.1, hdig.2.2.2.1, hdig.2.2.2.2.2.1, hdig.2.2.2.2.2.2⟩
  · fin_cases ht <;> decide

theorem isConvChar_ne (c : Char) (h : isConvChar c = true) : c ≠ '{' ∧ c ≠ '%' := by
  simp [isConvChar, or_assoc] at h
  rcases h with rfl | rfl | rfl | rfl | rfl | rfl | rfl | rfl | rfl | rfl | rfl | rfl |
    rfl | rfl | rfl <;> decide

theorem segWF_lit (s : List Char) (h : segWF (.lit s) = true) :
    ∀ c ∈ s, c ≠ '{' ∧ c ≠ '%' ∧ c ≠ '_' ∧ c ≠ 'F' := by
  simp [segWF, List.all_eq_true] at h
  intro c hc
  have h2 := h c hc
  tauto

theorem segWF_br (body : List Char) (h : segWF (.br body) = true) :
    ∀ c ∈ body, c ≠ '{' ∧ c ≠ '}' ∧ c ≠ '_' := by
  simp [segWF, List.all_eq_true] at h
  intro c hc
  have h2 := h c hc
  tauto

theorem segWF_pc (body : List Char) (cv : Char) (h : segWF (.pc body cv) = true) :
    isConvChar cv = true ∧ ∀ c ∈ body, c ≠ '(' ∧ c ≠ ')' ∧ c ≠ '{' ∧ c ≠ '_' := by
  simp [segWF, List.all_eq_true] at h
  refine ⟨h.1, ?_⟩
  intro c hc
  have h2 := h.2 c hc
  tauto

theorem braceFinditer_flat (segs : List Seg) :
    (∀ s ∈ segs, segWF s = true) →
      braceFinditer (flatSegs segs) = braceList segs := by
  induction segs with
  | nil => intro _; rfl
  | cons s rest ih =>
    intro h
    have hs := h s (by simp)
    have hrest : ∀ s2 ∈ rest, segWF s2 = true := fun s2 hs2 => h s2 (by simp [hs2])
    rw [flatSegs_cons]
    cases s with
    | lit l =>
      have hl := segWF_lit l hs
      rw [show Seg.flat (Seg.lit l) = l from rfl,
        braceFinditer_skip l _ (fun c hc => (hl c hc).1)]
      rw [show braceList (Seg.lit l :: rest) = braceList rest from rfl]
      exact ih hrest
    | br body =>
      have hb := segWF_br body hs
      have hshape : Seg.flat (Seg.br body) ++ flatSegs rest =
          '{' :: (body ++ '}' :: flatSegs rest) := by
        show ('{' :: (body ++ ['}'])) ++ flatSegs rest = _
        simp
      rw [hshape, braceFinditer_consume _ _ (fun c hc => ⟨(hb c hc).1, (hb c hc).2.1⟩)]
      rw [show braceList (Seg.br body :: rest) =
        ('{' :: (body ++ ['}'])) :: braceList rest from rfl]
      rw [ih hrest]
    | pc body cv =>
      obtain ⟨hcv, hb⟩ := segWF_pc body cv hs
      have hnob : ∀ c ∈ Seg.flat (Seg.pc body cv), c ≠ '{' := by
        intro c hc0
        have hc : c ∈ '%' :: '(' :: (body ++ [')', cv]) := hc0
        rcases List.mem_cons.mp hc with rfl | hc
        · decide
        rcases List.mem_cons.mp hc with rfl | hc
        · decide
        rcases List.mem_append.mp hc with hc | hc
        · exact (hb c hc).2.2.1
        · rcases List.mem_cons.mp hc with rfl | hc
          · decide
          · rcases List.mem_cons.mp hc with rfl | hc
            · exact (isConvChar_ne c hcv).1
            · cases hc
      rw [braceFinditer_skip _ _ hnob]
      rw [show braceList (Seg.pc body cv :: rest) = braceList rest from rfl]
      exact ih hrest
    | mark k i => simp [segWF] at hs

theorem markerStr_no_percent (k : MKind) (i : Nat) :
    ∀ c ∈ markerStr k i, c ≠ '%' := fun c hc => (markerStr_chars k i c hc).2.2.1

theorem percentFinditer_flat (segs : List Seg) :
    (∀ s ∈ segs, seg2WF s = true) →
      percentFinditer (flatSegs segs) = percentList segs := by
  induction segs with
  | nil => intro _; rfl
  | cons s rest ih =>
    intro h
    have hs := h s (by simp)
    have hrest : ∀ s2 ∈ rest, seg2WF s2 = true := fun s2 hs2 => h s2 (by simp [hs2])
    rw [flatSegs_cons]
    cases s with
    | lit l =>
      have hl : ∀ c ∈ l, c ≠ '%' := by
        have h2 := hs
        simp [seg2WF, List.all_eq_true] at h2
        intro c hc
        have h3 := h2 c hc
        tauto
      rw [show Seg.flat (Seg.lit l) = l from rfl, percentFinditer_skip l _ hl]
      exact ih hrest
    | br body => simp [seg2WF] at hs
    | pc body cv =>
      have hpc : isConvChar cv = true ∧ ∀ c ∈ body, c ≠ '(' ∧ c ≠ ')' := by
        simp [seg2WF, List.all_eq_true] at hs
        refine ⟨hs.1, ?_⟩
        intro c hc
        have h2 := hs.2 c hc
        tauto
      have hshape : Seg.flat (Seg.pc body cv) ++ flatSegs rest =
          '%' :: '(' :: (body ++ [')', cv] ++ flatSegs rest) := by
        show ('%' :: '(' :: (body ++ [')', cv])) ++ flatSegs rest = _
        simp
      rw [hshape, percentFinditer_consume body cv _ hpc.2 hpc.1]
      rw [show percentList (Seg.pc body cv :: rest) =
        ('%' :: '(' :: (body ++ [')', cv])) :: percentList rest from rfl]
      rw [ih hrest]
    | mark k i =>
      rw [show Seg.flat (Seg.mark k i) = markerStr k i from rfl,
        percentFinditer_skip _ _ (markerStr_no_percent k i)]
      rw [show percentList (Seg.mark k i :: rest) = percentList rest from rfl]
      exact ih hrest

theorem replaceFirst_hfree (hd : Char) (tl new : List Char) :
    ∀ (P t : List Char), (∀ c ∈ P, c ≠ hd) →
      replaceFirst (P ++ (hd :: tl) ++ t) (hd :: tl) new = P ++ new ++ t := by
  intro P
  induction P with
  | nil =>
    intro t _
    show replaceFirst ((hd :: tl) ++ t) (hd :: tl) new = new ++ t
    rw [show (hd :: tl) ++ t = hd :: (tl ++ t) from rfl, replaceFirst]
    rw [if_pos (by
      rw [show hd :: (tl ++ t) = (hd :: tl) ++ t from rfl]
      exact startsWith_self_append (hd :: tl) t)]
    rw [show hd :: (tl ++ t) = (hd :: tl) ++ t from rfl, List.drop_left]
  | cons c P ih =>
    intro t hP
    have hc : c ≠ hd := hP c (by simp)
    show replaceFirst (c :: (P ++ (hd :: tl) ++ t)) (hd :: tl) new = _
    rw [replaceFirst, if_neg (by
      rw [startsWith_cons_false_of_ne hd c tl _ (fun he => hc he.symm)]
      simp)]
    rw [ih t (fun c2 hc2 => hP c2 (by simp [hc2]))]
    rfl

theorem enumFrom_cons2 {α : Type} (n : Nat) (a : α) (l : List α) :
    List.enumFrom n (a :: l) = (n, a) :: List.enumFrom (n + 1) l := rfl

theorem markerStr_no_open (k : MKind) (i : Nat) :
    ∀ c ∈ markerStr k i, c ≠ '{' := fun c hc => (markerStr_chars k i c hc).1

theorem braceFold (segs : List Seg) :
    ∀ (i : Nat) (P : List Char) (m0 : List (List Char × List Char)),
      (∀ c ∈ P, c ≠ '{') → (∀ s ∈ segs, segWF s = true) →
      ((braceList segs).enumFrom i).foldl
        (fun acc p =>
          (replaceFirst acc.1 p.2 (markerStr .brace p.1),
           acc.2 ++ [(markerStr .brace p.1, p.2)]))
        (P ++ flatSegs segs, m0) =
      (P ++ flatSegs (braceSubSegs i segs),
       m0 ++ entriesToMap (braceEntriesFrom i segs)) := by
  induction segs with
  | nil =>
    intro i P m0 _ _
    simp [braceList, braceSubSegs, braceEntriesFrom, entriesToMap]
  | cons s rest ih =>
    intro i P m0 hP h
    have hs := h s (by simp)
    have hrest : ∀ s2 ∈ rest, segWF s2 = true := fun s2 hs2 => h s2 (by simp [hs2])
    cases s with
    | lit l =>
      have hl := segWF_lit l hs
      have hP2 : ∀ c ∈ P ++ l, c ≠ '{' := by
        intro c hc
        rcases List.mem_append.mp hc with h1 | h2
        · exact hP c h1
        · exact (hl c h2).1
      have hmain := ih i (P ++ l) m0 hP2 hrest
      rw [show braceList (Seg.lit l :: rest) = braceList rest from rfl,
        show braceSubSegs i (Seg.lit l :: rest) = Seg.lit l :: braceSubSegs i rest from rfl,
        show braceEntriesFrom i (Seg.lit l :: rest) = braceEntriesFrom i rest from rfl,
        flatSegs_cons, flatSegs_cons]
      rw [show Seg.flat (Seg.lit l) = l from rfl]
      rw [← List.append_assoc P l (flatSegs rest),
        ← List.append_assoc P l (flatSegs (braceSubSegs i rest))]
      exact hmain
    | br body =>
      have hb := segWF_br body hs
      have hP2 : ∀ c ∈ P ++ markerStr .brace i, c ≠ '{' := by
        intro c hc
        rcases List.mem_append.mp hc with h1 | h2
        · exact hP c h1
        · exact markerStr_no_open .brace i c h2
      have hmain := ih (i + 1) (P ++ markerStr .brace i)
        (m0 ++ [(markerStr .brace i, '{' :: (body ++ ['}']))]) hP2 hrest
      rw [show braceList (Seg.br body :: rest) =
        ('{' :: (body ++ ['}'])) :: braceList rest from rfl]
      rw [enumFrom_cons2, List.foldl_cons]
      rw [show braceSubSegs i (Seg.br body :: rest) =
        Seg.mark .brace i :: braceSubSegs (i + 1) rest from rfl]
      rw [show braceEntriesFrom i (Seg.br body :: rest) =
        (MKind.brace, i, '{' :: (body ++ ['}'])) :: braceEntriesFrom (i + 1) rest from rfl]
      rw [flatSegs_cons, flatSegs_cons]
      rw [show Seg.flat (Seg.br body) = '{' :: (body ++ ['}']) from rfl]
      rw [show Seg.flat (Seg.mark .brace i) = markerStr .brace i from rfl]
      rw [← List.append_assoc P ('{' :: (body ++ ['}'])) (flatSegs rest)]
      rw [replaceFirst_hfree '{' (body ++ ['}']) (markerStr .brace i) P (flatSegs rest) hP]
      rw [List.append_assoc P (markerStr .brace i) (flatSegs rest)] at hmain
      rw [show entriesToMap ((MKind.brace, i, '{' :: (body ++ ['}'])) ::
        braceEntriesFrom (i + 1) rest) = (markerStr .brace i, '{' :: (body ++ ['}'])) ::
        entriesToMap (braceEntriesFrom (i + 1) rest) from rfl]
      rw [← List.append_assoc P (markerStr MKind.brace i)
        (flatSegs (braceSubSegs (i + 1) rest))]
      rw [show m0 ++ (markerStr MKind.brace i, '{' :: (body ++ ['}'])) ::
        entriesToMap (braceEntriesFrom (i + 1) rest) =
        (m0 ++ [(markerStr MKind.brace i, '{' :: (body ++ ['}']))]) ++
        entriesToMap (braceEntriesFrom (i + 1) rest) by simp]
      rw [List.append_assoc P (markerStr MKind.brace i) (flatSegs rest)]
      exact hmain
    | pc body cv =>
      obtain ⟨hcv, hb⟩ := segWF_pc body cv hs
      have hflat : ∀ c ∈ Seg.flat (Seg.pc body cv), c ≠ '{' := by
        intro c hc0
        have hc : c ∈ '%' :: '(' :: (body ++ [')', cv]) := hc0
        rcases List.mem_cons.mp hc with rfl | hc
        · decide
        rcases List.mem_cons.mp hc with rfl | hc
        · decide
        rcases List.mem_append.mp hc with hc | hc
        · exact (hb c hc).2.2.1
        · rcases List.mem_cons.mp hc with rfl | hc
          · decide
          · rcases List.mem_cons.mp hc with rfl | hc
            · exact (isConvChar_ne c hcv).1
            · cases hc
      have hP2 : ∀ c ∈ P ++ Seg.flat (Seg.pc body cv), c ≠ '{' := by
        intro c hc
        rcases List.mem_append.mp hc with h1 | h2
        · exact hP c h1
        · exact hflat c h2
      have hmain := ih i (P ++ Seg.flat (Seg.pc body cv)) m0 hP2 hrest
      rw [show braceList (Seg.pc body cv :: rest) = braceList rest from rfl,
        show braceSubSegs i (Seg.pc body cv :: rest) =
          Seg.pc body cv :: braceSubSegs i rest from rfl,
        show braceEntriesFrom i (Seg.pc body cv :: rest) = braceEntriesFrom i rest from rfl,
        flatSegs_cons, flatSegs_cons]
      rw [← List.append_assoc P (Seg.flat (Seg.pc body cv)) (flatSegs rest),
        ← List.append_assoc P (Seg.flat (Seg.pc body cv))
          (flatSegs (braceSubSegs i rest))]
      exact hmain
    | mark k j => simp [segWF] at hs

theorem percentFold (segs : List Seg) :
    ∀ (i : Nat) (P : List Char) (m0 : List (List Char × List Char)),
      (∀ c ∈ P, c ≠ '%') → (∀ s ∈ segs, seg2WF s = true) →
      ((percentList segs).enumFrom i).foldl
        (fun acc p =>
          (replaceFirst acc.1 p.2 (markerStr .percent p.1),
           acc.2 ++ [(markerStr .percent p.1, p.2)]))
        (P ++ flatSegs segs, m0) =
      (P ++ flatSegs (percentSubSegs i segs),
       m0 ++ entriesToMap (percentEntriesFrom i segs)) := by
  induction segs with
  | nil =>
    intro i P m0 _ _
    simp [percentList, percentSubSegs, percentEntriesFrom, entriesToMap]
  | cons s rest ih =>
    intro i P m0 hP h
    have hs := h s (by simp)
    have hrest : ∀ s2 ∈ rest, seg2WF s2 = true := fun s2 hs2 => h s2 (by simp [hs2])
    cases s with
    | lit l =>
      have hl : ∀ c ∈ l, c ≠ '%' := by
        have h2 := hs
        simp [seg2WF, List.all_eq_true] at h2
        intro c hc
        have h3 := h2 c hc
        tauto
      have hP2 : ∀ c ∈ P ++ l, c ≠ '%' := by
        intro c hc
        rcases List.mem_append.mp hc with h1 | h2
        · exact hP c h1
        · exact hl c h2
      have hmain := ih i (P ++ l) m0 hP2 hrest
      rw [show percentList (Seg.lit l :: rest) = percentList rest from rfl,
        show percentSubSegs i (Seg.lit l :: rest) = Seg.lit l :: percentSubSegs i rest
          from rfl,
        show percentEntriesFrom i (Seg.lit l :: rest) = percentEntriesFrom i rest from rfl,
        flatSegs_cons, flatSegs_cons]
      rw [show Seg.flat (Seg.lit l) = l from rfl]
      rw [← List.append_assoc P l (flatSegs rest),
        ← List.append_assoc P l (flatSegs (percentSubSegs i rest))]
      exact hmain
    | br body => simp [seg2WF] at hs
    | pc body cv =>
      have hP2 : ∀ c ∈ P ++ markerStr .percent i, c ≠ '%' := by
        intro c hc
        rcases List.mem_append.mp hc with h1 | h2
        · exact hP c h1
        · exact markerStr_no_percent .percent i c h2
      have hmain := ih (i + 1) (P ++ markerStr .percent i)
        (m0 ++ [(markerStr .percent i, '%' :: '(' :: (body ++ [')', cv]))]) hP2 hrest
      rw [show percentList (Seg.pc body cv :: rest) =
        ('%' :: '(' :: (body ++ [')', cv])) :: percentList rest from rfl]
      rw [enumFrom_cons2, List.foldl_cons]
      rw [show percentSubSegs i (Seg.pc body cv :: rest) =
        Seg.mark .percent i :: percentSubSegs (i + 1) rest from rfl]
      rw [show percentEntriesFrom i (Seg.pc body cv :: rest) =
        (MKind.percent, i, '%' :: '(' :: (body ++ [')', cv])) ::
          percentEntriesFrom (i + 1) rest from rfl]
      rw [flatSegs_cons, flatSegs_cons]
      rw [show Seg.flat (Seg.pc body cv) = '%' :: ('(' :: (body ++ [')', cv])) from rfl]
      rw [show Seg.flat (Seg.mark .percent i) = markerStr .percent i from rfl]
      rw [← List.append_assoc P ('%' :: ('(' :: (body ++ [')', cv]))) (flatSegs rest)]
      rw [replaceFirst_hfree '%' ('(' :: (body ++ [')', cv])) (markerStr .percent i) P
        (flatSegs rest) hP]
      rw [List.append_assoc P (markerStr .percent i) (flatSegs rest)] at hmain
      rw [show entriesToMap ((MKind.percent, i, '%' :: '(' :: (body ++ [')', cv])) ::
        percentEntriesFrom (i + 1) rest) =
        (markerStr .percent i, '%' :: '(' :: (body ++ [')', cv])) ::
        entriesToMap (percentEntriesFrom (i + 1) rest) from rfl]
      rw [← List.append_assoc P (markerStr MKind.percent i)
        (flatSegs (percentSubSegs (i + 1) rest))]
      rw [show m0 ++ (markerStr MKind.percent i, '%' :: '(' :: (body ++ [')', cv])) ::
        entriesToMap (percentEntriesFrom (i + 1) rest) =
        (m0 ++ [(markerStr MKind.percent i, '%' :: '(' :: (body ++ [')', cv]))]) ++
        entriesToMap (percentEntriesFrom (i + 1) rest) by simp]
      rw [List.append_assoc P (markerStr MKind.percent i) (flatSegs rest)]
      exact hmain
    | mark k j =>
      have hP2 : ∀ c ∈ P ++ markerStr k j, c ≠ '%' := by
        intro c hc
        rcases List.mem_append.mp hc with h1 | h2
        · exact hP c h1
        · exact markerStr_no_percent k j c h2
      have hmain := ih i (P ++ markerStr k j) m0 hP2 hrest
      rw [show percentList (Seg.mark k j :: rest) = percentList rest from rfl,
        show percentSubSegs i (Seg.mark k j :: rest) =
          Seg.mark k j :: percentSubSegs i rest from rfl,
        show percentEntriesFrom i (Seg.mark k j :: rest) = percentEntriesFrom i rest
          from rfl,
        flatSegs_cons, flatSegs_cons]
      rw [show Seg.flat (Seg.mark k j) = markerStr k j from rfl]
      rw [← List.append_assoc P (markerStr k j) (flatSegs rest),
        ← List.append_assoc P (markerStr k j) (flatSegs (percentSubSegs i rest))]
      exact hmain

theorem braceSubSegs_WF (segs : List Seg) :
    ∀ i, (∀ s ∈ segs, segWF s = true) →
      ∀ s2 ∈ braceSubSegs i segs, seg2WF s2 = true := by
  induction segs with
  | nil => intro i _ s2 hs2; simp [braceSubSegs] at hs2
  | cons s rest ih =>
    intro i h s2 hs2
    have hs := h s (by simp)
    have hrest : ∀ s3 ∈ rest, segWF s3 = true := fun s3 hs3 => h s3 (by simp [hs3])
    cases s with
    | lit l =>
      rw [show braceSubSegs i (Seg.lit l :: rest) = Seg.lit l :: braceSubSegs i rest
        from rfl] at hs2
      rcases List.mem_cons.mp hs2 with rfl | hs2
      · exact hs
      · exact ih i hrest s2 hs2
    | br body =>
      rw [show braceSubSegs i (Seg.br body :: rest) =
        Seg.mark .brace i :: braceSubSegs (i + 1) rest from rfl] at hs2
      rcases List.mem_cons.mp hs2 with rfl | hs2
      · rfl
      · exact ih (i + 1) hrest s2 hs2
    | pc body cv =>
      rw [show braceSubSegs i (Seg.pc body cv :: rest) =
        Seg.pc body cv :: braceSubSegs i rest from rfl] at hs2
      rcases List.mem_cons.mp hs2 with rfl | hs2
      · exact hs
      · exact ih i hrest s2 hs2
    | mark k j => simp [segWF] at hs

theorem percentList_braceSub (segs : List Seg) :
    ∀ i, percentList (braceSubSegs i segs) = percentList segs := by
  induction segs with
  | nil => intro i; rfl
  | cons s rest ih =>
    intro i
    cases s with
    | lit l => exact ih i
    | br body => exact ih (i + 1)
    | pc body cv =>
      show ('%' :: '(' :: (body ++ [')', cv])) :: percentList (braceSubSegs i rest) = _
      rw [ih i]
      rfl
    | mark k j => exact ih i

theorem percentEntries_braceSub (segs : List Seg) :
    ∀ i j, percentEntriesFrom j (braceSubSegs i segs) = percentEntriesFrom j segs := by
  induction segs with
  | nil => intro i j; rfl
  | cons s rest ih =>
    intro i j
    cases s with
    | lit l => exact ih i j
    | br body => exact ih (i + 1) j
    | pc body cv =>
      show (MKind.percent, j, '%' :: '(' :: (body ++ [')', cv])) ::
        percentEntriesFrom (j + 1) (braceSubSegs i rest) = _
      rw [ih i (j + 1)]
      rfl
    | mark k j2 => exact ih i j

theorem extract_flat (segs : List Seg) (h : ∀ s ∈ segs, segWF s = true) :
    extractFormatPlaceholders (flatSegs segs) =
      (flatSegs (percentSubSegs 0 (braceSubSegs 0 segs)),
       entriesToMap (braceEntriesFrom 0 segs) ++
         entriesToMap (percentEntriesFrom 0 segs)) := by
  have h1 : (braceFinditer (flatSegs segs)).enum.foldl
      (fun acc p => (replaceFirst acc.1 p.2 (markerStr .brace p.1),
        acc.2 ++ [(markerStr .brace p.1, p.2)]))
      (flatSegs segs, ([] : List (List Char × List Char))) =
      (flatSegs (braceSubSegs 0 segs), entriesToMap (braceEntriesFrom 0 segs)) := by
    rw [braceFinditer_flat segs h]
    have hmain := braceFold segs 0 [] [] (by simp) h
    simpa using hmain
  have hWF2 := braceSubSegs_WF segs 0 h
  have h2 : (percentFinditer (flatSegs (braceSubSegs 0 segs))).enum.foldl
      (fun acc p => (replaceFirst acc.1 p.2 (markerStr .percent p.1),
        acc.2 ++ [(markerStr .percent p.1, p.2)]))
      (flatSegs (braceSubSegs 0 segs), entriesToMap (braceEntriesFrom 0 segs)) =
      (flatSegs (percentSubSegs 0 (braceSubSegs 0 segs)),
       entriesToMap (braceEntriesFrom 0 segs) ++
         entriesToMap (percentEntriesFrom 0 segs)) := by
    rw [percentFinditer_flat _ hWF2]
    have hmain := percentFold (braceSubSegs 0 segs) 0 []
      (entriesToMap (braceEntriesFrom 0 segs)) (by simp) hWF2
    rw [percentEntries_braceSub segs 0 0, percentList_braceSub segs 0] at hmain
    rw [percentList_braceSub segs 0]
    simpa [List.enum] using hmain
  show (percentFinditer ((braceFinditer (flatSegs segs)).enum.foldl _
      (flatSegs segs, [])).1).enum.foldl _
      ((braceFinditer (flatSegs segs)).enum.foldl _ (flatSegs segs, [])) = _
  rw [h1]
  exact h2

theorem markerStr_ne_nil (k : MKind) (i : Nat) : markerStr k i ≠ [] := by
  rw [markerStr]
  cases k <;> simp [markerLead]

theorem markerStr_head (k : MKind) (i : Nat) : ∃ tl, markerStr k i = '_' :: tl := by
  cases k <;> exact ⟨_, rfl⟩

theorem replaceAll_skip_head (hd : Char) (tl new : List Char) :
    ∀ (P b : List Char), (∀ c ∈ P, c ≠ hd) →
      replaceAll (P ++ b) (hd :: tl) new = P ++ replaceAll b (hd :: tl) new := by
  intro P
  induction P with
  | nil => intro b _; rfl
  | cons c P ih =>
    intro b hP
    have hc : c ≠ hd := hP c (by simp)
    rw [show (c :: P) ++ b = c :: (P ++ b) from rfl]
    rw [replaceAll_cons c (P ++ b) (hd :: tl) new (by simp)]
    rw [if_neg (by
      rw [startsWith_cons_false_of_ne hd c tl (P ++ b) (fun he => hc he.symm)]
      simp)]
    rw [ih b (fun c2 hc2 => hP c2 (by simp [hc2]))]
    rfl

theorem replaceAll_nostart (old new : List Char) (hne : old ≠ []) :
    ∀ (P b : List Char), NoStart old P b →
      replaceAll (P ++ b) old new = P ++ replaceAll b old new := by
  intro P
  induction P with
  | nil => intro b _; rfl
  | cons c P ih =>
    intro b h
    obtain ⟨h1, h2⟩ := h
    rw [show (c :: P) ++ b = c :: (P ++ b) from rfl]
    rw [replaceAll_cons c (P ++ b) old new hne]
    rw [if_neg (by simp [h1])]
    rw [ih b h2]
    rfl

theorem NoStart_append (old : List Char) :
    ∀ (x y b : List Char), NoStart old x (y ++ b) → NoStart old y b →
      NoStart old (x ++ y) b := by
  intro x
  induction x with
  | nil => intro y b _ hy; exact hy
  | cons c x ih =>
    intro y b hx hy
    obtain ⟨h1, h2⟩ := hx
    refine ⟨?_, ih y b h2 hy⟩
    show listStartsWith old (c :: ((x ++ y) ++ b)) = false
    rw [List.append_assoc]
    exact h1

theorem NoStart_heads (old : List Char) (hd : Char) (tlo : List Char)
    (hold : old = hd :: tlo) :
    ∀ (P b : List Char), (∀ c ∈ P, c ≠ hd) → NoStart old P b := by
  intro P
  induction P with
  | nil => intro b _; trivial
  | cons c P ih =>
    intro b hP
    refine ⟨?_, ih b (fun c2 hc2 => hP c2 (by simp [hc2]))⟩
    rw [hold]
    exact startsWith_cons_false_of_ne hd c tlo _ (fun he => (hP c (by simp)) he.symm)

theorem sw3_head (c : Char) (t : List Char) (h : c ≠ '_') :
    listStartsWith ['_', '_', 'F'] (c :: t) = false :=
  startsWith_cons_false_of_ne '_' c ['_', 'F'] t (fun he => h he.symm)

theorem sw3_second (c2 : Char) (t : List Char) (h : c2 ≠ '_') :
    listStartsWith ['_', '_', 'F'] ('_' :: c2 :: t) = false := by
  simp [listStartsWith, Ne.symm h]

theorem sw3_third (c3 : Char) (t : List Char) (h : c3 ≠ 'F') :
    listStartsWith ['_', '_', 'F'] ('_' :: '_' :: c3 :: t) = false := by
  simp [listStartsWith, Ne.symm h]

theorem not_sw_of_not_sent (old t : List Char)
    (hsent : listStartsWith ['_', '_', 'F'] old = true)
    (h : listStartsWith ['_', '_', 'F'] t = false) :
    listStartsWith old t = false := by
  cases hq : listStartsWith old t with
  | false => rfl
  | true =>
    rw [startsWith_trans ['_', '_', 'F'] old t hsent hq] at h
    cases h

theorem goodFollow_not_F (b : List Char) (hgf : goodFollow b = true) :
    listStartsWith ['_', '_', 'F'] ('_' :: '_' :: b) = false := by
  cases b with
  | nil => decide
  | cons c b2 =>
    have hc : c ≠ 'F' := by
      intro he
      subst he
      simp [goodFollow] at hgf
    exact sw3_third c b2 hc

theorem goodFollow_not_uF (b : List Char) (hgf : goodFollow b = true) :
    listStartsWith ['_', '_', 'F'] ('_' :: b) = false := by
  cases b with
  | nil => decide
  | cons c b2 =>
    by_cases hc : c = '_'
    · subst hc
      cases b2 with
      | nil => decide
      | cons c2 b3 =>
        have hc2 : c2 ≠ 'F' := by
          intro he
          subst he
          simp [goodFollow, headNotF] at hgf
        exact sw3_third c2 b3 hc2
    · exact sw3_second c b2 hc

theorem marker_nostart (k2 : MKind) (j : Nat) (k : MKind) (i : Nat) (b : List Char)
    (hne : ¬(k = k2 ∧ i = j)) (hgf : goodFollow b = true) :
    NoStart (markerStr k i) (markerStr k2 j) b := by
  have hsent : listStartsWith ['_', '_', 'F'] (markerStr k i) = true := by
    cases k <;> rfl
  have h0 : listStartsWith (markerStr k i) (markerStr k2 j ++ b) = false := by
    cases hq : listStartsWith (markerStr k i) (markerStr k2 j ++ b) with
    | false => rfl
    | true => exact absurd (marker_startsWith_marker k k2 i j b hq) hne
  obtain ⟨d, ds, hnat, hdig⟩ := natStr_head_digit j
  have hd2 : d ≠ '_' := (isDigitCh_ne d hdig).1
  obtain ⟨tlo, htlo⟩ := markerStr_head k i
  have hdigits : ∀ bb, NoStart (markerStr k i) (natStr j) bb := by
    intro bb
    exact NoStart_heads _ '_' tlo htlo (natStr j) bb
      (fun c hc => (isDigitCh_ne c (natStr_digits j c hc)).1)
  have htail : NoStart (markerStr k i) ['_', '_'] b := by
    refine ⟨?_, ?_, trivial⟩
    · exact not_sw_of_not_sent _ _ hsent (goodFollow_not_F b hgf)
    · exact not_sw_of_not_sent _ _ hsent (goodFollow_not_uF b hgf)
  have hdt : NoStart (markerStr k i) (natStr j ++ ['_', '_']) b :=
    NoStart_append _ (natStr j) ['_', '_'] b (hdigits (['_', '_'] ++ b)) htail
  cases k2
  · have hshape : markerStr .brace j =
        ['_', '_', 'F', 'O', 'R', 'M', 'A', 'T', '_', 'B', 'R', 'A', 'C', 'E', '_'] ++
          (natStr j ++ ['_', '_']) := by
      rw [markerStr, markerLead]
      simp
    have h0b : listStartsWith (markerStr k i)
        ((['_', '_', 'F', 'O', 'R', 'M', 'A', 'T', '_', 'B', 'R', 'A', 'C', 'E', '_'] ++
          (natStr j ++ ['_', '_'])) ++ b) = false := by
      rw [← hshape]
      exact h0
    rw [hshape]
    apply NoStart_append
    · refine ⟨?_, ?_, ?_, ?_, ?_, ?_, ?_, ?_, ?_, ?_, ?_, ?_, ?_, ?_, ?_, trivial⟩
      · exact h0b
      · exact not_sw_of_not_sent _ _ hsent (sw3_second 'F' _ (by decide))
      · exact not_sw_of_not_sent _ _ hsent (sw3_head 'F' _ (by decide))
      · exact not_sw_of_not_sent _ _ hsent (sw3_head 'O' _ (by decide))
      · exact not_sw_of_not_sent _ _ hsent (sw3_head 'R' _ (by decide))
      · exact not_sw_of_not_sent _ _ hsent (sw3_head 'M' _ (by decide))
      · exact not_sw_of_not_sent _ _ hsent (sw3_head 'A' _ (by decide))
      · exact not_sw_of_not_sent _ _ hsent (sw3_head 'T' _ (by decide))
      · exact not_sw_of_not_sent _ _ hsent (sw3_second 'B' _ (by decide))
      · exact not_sw_of_not_sent _ _ hsent (sw3_head 'B' _ (by decide))
      · exact not_sw_of_not_sent _ _ hsent (sw3_head 'R' _ (by decide))
      · exact not_sw_of_not_sent _ _ hsent (sw3_head 'A' _ (by decide))
      · exact not_sw_of_not_sent _ _ hsent (sw3_head 'C' _ (by decide))
      · exact not_sw_of_not_sent _ _ hsent (sw3_head 'E' _ (by decide))
      · rw [hnat]
        exact not_sw_of_not_sent _ _ hsent (sw3_second d _ hd2)
    · exact hdt
  · have hshape : markerStr .percent j =
        ['_', '_', 'F', 'O', 'R', 'M', 'A', 'T', '_', 'P', 'E', 'R', 'C', 'E', 'N',
          'T', '_'] ++ (natStr j ++ ['_', '_']) := by
      rw [markerStr, markerLead]
      simp
    have h0b : listStartsWith (markerStr k i)
        ((['_', '_', 'F', 'O', 'R', 'M', 'A', 'T', '_', 'P', 'E', 'R', 'C', 'E', 'N',
          'T', '_'] ++ (natStr j ++ ['_', '_'])) ++ b) = false := by
      rw [← hshape]
      exact h0
    rw [hshape]
    apply NoStart_append
    · refine ⟨?_, ?_, ?_, ?_, ?_, ?_, ?_, ?_, ?_, ?_, ?_, ?_, ?_, ?_, ?_, ?_, ?_,
        trivial⟩
      · exact h0b
      · exact not_sw_of_not_sent _ _ hsent (sw3_second 'F' _ (by decide))
      · exact not_sw_of_not_sent _ _ hsent (sw3_head 'F' _ (by decide))
      · exact not_sw_of_not_sent _ _ hsent (sw3_head 'O' _ (by decide))
      · exact not_sw_of_not_sent _ _ hsent (sw3_head 'R' _ (by decide))
      · exact not_sw_of_not_sent _ _ hsent (sw3_head 'M' _ (by decide))
      · exact not_sw_of_not_sent _ _ hsent (sw3_head 'A' _ (by decide))
      · exact not_sw_of_not_sent _ _ hsent (sw3_head 'T' _ (by decide))
      · exact not_sw_of_not_sent _ _ hsent (sw3_second 'P' _ (by decide))
      · exact not_sw_of_not_sent _ _ hsent (sw3_head 'P' _ (by decide))
      · exact not_sw_of_not_sent _ _ hsent (sw3_head 'E' _ (by decide))
      · exact not_sw_of_not_sent _ _ hsent (sw3_head 'R' _ (by decide))
      · exact not_sw_of_not_sent _ _ hsent (sw3_head 'C' _ (by decide))
      · exact not_sw_of_not_sent _ _ hsent (sw3_head 'E' _ (by decide))
      · exact not_sw_of_not_sent _ _ hsent (sw3_head 'N' _ (by decide))
      · exact not_sw_of_not_sent _ _ hsent (sw3_head 'T' _ (by decide))
      · rw [hnat]
        exact not_sw_of_not_sent _ _ hsent (sw3_second d _ hd2)
    · exact hdt

theorem replaceAll_empty (old new : List Char) (hne : old ≠ []) :
    replaceAll [] old new = [] := by
  rw [replaceAll, if_neg hne]
  rfl

theorem replaceAll_match (old new b : List Char) (hne : old ≠ []) :
    replaceAll (old ++ b) old new = new ++ replaceAll b old new := by
  obtain ⟨c, rest, hold⟩ := List.exists_cons_of_ne_nil hne
  subst hold
  rw [show (c :: rest) ++ b = c :: (rest ++ b) from rfl]
  rw [replaceAll_cons c (rest ++ b) (c :: rest) new (by simp)]
  rw [if_pos (by
    have h := startsWith_self_append (c :: rest) b
    simpa using h)]
  have hdrop : (c :: (rest ++ b)).drop (c :: rest).length = b := by
    rw [show c :: (rest ++ b) = (c :: rest) ++ b from rfl]
    exact List.drop_left _ _
  rw [hdrop]

theorem goodFollow_flat : ∀ segs : List Seg, (∀ s ∈ segs, seg3WF s = true) →
    goodFollow (flatSegs segs) = true := by
  intro segs
  induction segs with
  | nil => intro _; rfl
  | cons s rest ih =>
    intro h
    have hs := h s (by simp)
    have hrest := ih (fun s2 hs2 => h s2 (by simp [hs2]))
    rw [flatSegs_cons]
    cases s with
    | lit l =>
      cases l with
      | nil => simpa using hrest
      | cons c l2 =>
        have hc1 : c ≠ '_' := by
          intro he
          subst he
          simp [seg3WF] at hs
        have hc2 : c ≠ 'F' := by
          intro he
          subst he
          simp [seg3WF, headNotF] at hs
        show goodFollow (c :: (l2 ++ flatSegs rest)) = true
        simp [goodFollow, hc1, hc2]
    | br body => simp [seg3WF] at hs
    | pc body cv => simp [seg3WF] at hs
    | mark k i => cases k <;> rfl

theorem replaceAll_segs (k : MKind) (i : Nat) (v : List Char) :
    ∀ segs : List Seg, (∀ s ∈ segs, seg3WF s = true) →
      replaceAll (flatSegs segs) (markerStr k i) v =
        flatSegs (substMark k i v segs) := by
  intro segs
  induction segs with
  | nil =>
    intro _
    rw [flatSegs_nil, replaceAll_empty _ _ (markerStr_ne_nil k i)]
    rfl
  | cons s rest ih =>
    intro h
    have hs := h s (by simp)
    have hr : ∀ s2 ∈ rest, seg3WF s2 = true := fun s2 hs2 => h s2 (by simp [hs2])
    have ihr := ih hr
    rw [flatSegs_cons]
    cases s with
    | lit l =>
      have hl : ∀ c ∈ l, c ≠ '_' := by
        intro c hc
        simp only [seg3WF, Bool.and_eq_true, List.all_eq_true] at hs
        have h2 := hs.1 c hc
        simpa using h2
      obtain ⟨tlo, htlo⟩ := markerStr_head k i
      rw [show Seg.flat (Seg.lit l) = l from rfl]
      rw [htlo, replaceAll_skip_head '_' tlo v l (flatSegs rest) hl]
      rw [← htlo, ihr]
      rw [show substMark k i v (.lit l :: rest) = .lit l :: substMark k i v rest from rfl]
      rw [flatSegs_cons]
      rfl
    | br body => simp [seg3WF] at hs
    | pc body cv => simp [seg3WF] at hs
    | mark k2 i2 =>
      by_cases hk : k2 = k ∧ i2 = i
      · obtain ⟨hk1, hk2⟩ := hk
        subst hk1
        subst hk2
        show replaceAll (markerStr k2 i2 ++ flatSegs rest) (markerStr k2 i2) v = _
        rw [replaceAll_match _ _ _ (markerStr_ne_nil k2 i2), ihr]
        have hsub : substMark1 k2 i2 v (.mark k2 i2) = .lit v := by
          simp [substMark1]
        rw [show substMark k2 i2 v (.mark k2 i2 :: rest) =
            substMark1 k2 i2 v (.mark k2 i2) :: substMark k2 i2 v rest from rfl]
        rw [hsub, flatSegs_cons]
        rfl
      · have hnost : NoStart (markerStr k i) (markerStr k2 i2) (flatSegs rest) :=
          marker_nostart k2 i2 k i (flatSegs rest)
            (fun hc => hk ⟨hc.1.symm, hc.2.symm⟩) (goodFollow_flat rest hr)
        show replaceAll (markerStr k2 i2 ++ flatSegs rest) (markerStr k i) v = _
        rw [replaceAll_nostart (markerStr k i) v (markerStr_ne_nil k i)
          (markerStr k2 i2) (flatSegs rest) hnost, ihr]
        have hsub : substMark1 k i v (.mark k2 i2) = .mark k2 i2 := by
          simp [substMark1, hk]
        rw [show substMark k i v (.mark k2 i2 :: rest) =
            substMark1 k i v (.mark k2 i2) :: substMark k i v rest from rfl]
        rw [hsub, flatSegs_cons]
        rfl

theorem seg3WF_substMark1 (k : MKind) (i : Nat) (v : List Char)
    (hv : (v.all (fun c => c != '_') && headNotF v) = true) (s : Seg)
    (hs : seg3WF s = true) : seg3WF (substMark1 k i v s) = true := by
  cases s with
  | lit l => exact hs
  | br body => simp [seg3WF] at hs
  | pc body cv => simp [seg3WF] at hs
  | mark k2 i2 =>
    by_cases hk : k2 = k ∧ i2 = i
    · rw [show substMark1 k i v (.mark k2 i2) =
          if k2 = k ∧ i2 = i then Seg.lit v else Seg.mark k2 i2 from rfl, if_pos hk]
      exact hv
    · rw [show substMark1 k i v (.mark k2 i2) =
          if k2 = k ∧ i2 = i then Seg.lit v else Seg.mark k2 i2 from rfl, if_neg hk]
      rfl

theorem restore_fold : ∀ (L : List (MKind × Nat × List Char)) (segs : List Seg),
    (∀ s ∈ segs, seg3WF s = true) →
    (∀ e ∈ L, (e.2.2.all (fun c => c != '_') && headNotF e.2.2) = true) →
    restoreFormatPlaceholders (flatSegs segs) (entriesToMap L) =
      flatSegs (substMarks L segs) := by
  intro L
  induction L with
  | nil => intro segs _ _; rfl
  | cons e L ih =>
    intro segs hsegs hL
    have hstep : restoreFormatPlaceholders (flatSegs segs) (entriesToMap (e :: L)) =
        restoreFormatPlaceholders
          (replaceAll (flatSegs segs) (markerStr e.1 e.2.1) e.2.2)
          (entriesToMap L) := rfl
    rw [hstep, replaceAll_segs e.1 e.2.1 e.2.2 segs hsegs]
    have hwf : ∀ s2 ∈ substMark e.1 e.2.1 e.2.2 segs, seg3WF s2 = true := by
      intro s2 hs2
      simp only [substMark, List.mem_map] at hs2
      obtain ⟨s0, hs0, h2⟩ := hs2
      rw [← h2]
      exact seg3WF_substMark1 _ _ _ (hL e (by simp)) s0 (hsegs s0 hs0)
    rw [ih (substMark e.1 e.2.1 e.2.2 segs) hwf (fun e2 he2 => hL e2 (by simp [he2]))]
    rfl

theorem substList_cons (e : MKind × Nat × List Char) (L : List (MKind × Nat × List Char))
    (s : Seg) : substList (e :: L) s = substList L (substMark1 e.1 e.2.1 e.2.2 s) := rfl

theorem substList_append (L1 L2 : List (MKind × Nat × List Char)) (s : Seg) :
    substList (L1 ++ L2) s = substList L2 (substList L1 s) :=
  List.foldl_append _ _ _ _

theorem substList_lit (L : List (MKind × Nat × List Char)) (l : List Char) :
    substList L (.lit l) = .lit l := by
  induction L with
  | nil => rfl
  | cons e L ih =>
    rw [substList_cons]
    exact ih

theorem substList_skip (s : Seg) :
    ∀ L : List (MKind × Nat × List Char),
      (∀ e ∈ L, substMark1 e.1 e.2.1 e.2.2 s = s) → substList L s = s := by
  intro L
  induction L with
  | nil => intro _; rfl
  | cons e L ih =>
    intro h
    rw [substList_cons, h e (by simp)]
    exact ih (fun e2 he2 => h e2 (by simp [he2]))

theorem substMarks_map : ∀ (L : List (MKind × Nat × List Char)) (segs : List Seg),
    substMarks L segs = segs.map (substList L) := by
  intro L
  induction L with
  | nil =>
    intro segs
    show segs = segs.map (substList [])
    have h : segs.map (substList []) = segs.map id := rfl
    rw [h, List.map_id]
  | cons e L ih =>
    intro segs
    show substMarks L (substMark e.1 e.2.1 e.2.2 segs) = _
    rw [ih]
    rw [show substMark e.1 e.2.1 e.2.2 segs = segs.map (substMark1 e.1 e.2.1 e.2.2)
      from rfl]
    rw [List.map_map]
    rfl

theorem substMark1_mark_ne (k : MKind) (i : Nat) (v : List Char) (k2 : MKind) (i2 : Nat)
    (h : ¬(k2 = k ∧ i2 = i)) : substMark1 k i v (.mark k2 i2) = .mark k2 i2 := by
  rw [show substMark1 k i v (.mark k2 i2) =
      if k2 = k ∧ i2 = i then Seg.lit v else Seg.mark k2 i2 from rfl, if_neg h]

theorem substList_mark_shape : ∀ (L : List (MKind × Nat × List Char)) (k2 : MKind)
    (i2 : Nat), substList L (.mark k2 i2) = .mark k2 i2 ∨
      ∃ l, substList L (.mark k2 i2) = Seg.lit l := by
  intro L
  induction L with
  | nil => intro k2 i2; exact Or.inl rfl
  | cons e L ih =>
    intro k2 i2
    by_cases he : k2 = e.1 ∧ i2 = e.2.1
    · rw [substList_cons]
      rw [show substMark1 e.1 e.2.1 e.2.2 (.mark k2 i2) =
          if k2 = e.1 ∧ i2 = e.2.1 then Seg.lit e.2.2 else Seg.mark k2 i2 from rfl,
        if_pos he]
      rw [substList_lit]
      exact Or.inr ⟨e.2.2, rfl⟩
    · rw [substList_cons, substMark1_mark_ne _ _ _ _ _ he]
      exact ih k2 i2

theorem substList_middle (e : MKind × Nat × List Char)
    (L1 L2 : List (MKind × Nat × List Char)) (s : Seg)
    (hshape : (∃ l, s = Seg.lit l) ∨
      ∃ k2 i2, ¬(k2 = e.1 ∧ i2 = e.2.1) ∧ s = Seg.mark k2 i2) :
    substList (L1 ++ e :: L2) s = substList (L1 ++ L2) s := by
  rw [substList_append, substList_append, substList_cons]
  congr 1
  rcases hshape with ⟨l, rfl⟩ | ⟨k2, i2, hne, rfl⟩
  · rw [substList_lit]
    rfl
  · rcases substList_mark_shape L1 k2 i2 with hm | ⟨l, hm⟩
    · rw [hm, substMark1_mark_ne _ _ _ _ _ hne]
    · rw [hm]
      rfl

theorem braceEntriesFrom_shape : ∀ (segs : List Seg) (b0 : Nat),
    ∀ e ∈ braceEntriesFrom b0 segs, e.1 = MKind.brace ∧ b0 ≤ e.2.1 := by
  intro segs
  induction segs with
  | nil => intro b0 e he; simp [braceEntriesFrom] at he
  | cons s rest ih =>
    intro b0 e he
    cases s with
    | br body =>
      rw [show braceEntriesFrom b0 (.br body :: rest) =
          (MKind.brace, b0, '{' :: (body ++ ['}'])) :: braceEntriesFrom (b0 + 1) rest
          from rfl] at he
      rcases List.mem_cons.mp he with h1 | h2
      · subst h1; exact ⟨rfl, le_refl _⟩
      · have h3 := ih (b0 + 1) e h2
        exact ⟨h3.1, by omega⟩
    | lit l => exact ih b0 e he
    | pc body cv => exact ih b0 e he
    | mark k i => exact ih b0 e he

theorem percentEntriesFrom_shape : ∀ (segs : List Seg) (p0 : Nat),
    ∀ e ∈ percentEntriesFrom p0 segs, e.1 = MKind.percent ∧ p0 ≤ e.2.1 := by
  intro segs
  induction segs with
  | nil => intro p0 e he; simp [percentEntriesFrom] at he
  | cons s rest ih =>
    intro p0 e he
    cases s with
    | pc body cv =>
      rw [show percentEntriesFrom p0 (.pc body cv :: rest) =
          (MKind.percent, p0, '%' :: '(' :: (body ++ [')', cv])) ::
            percentEntriesFrom (p0 + 1) rest from rfl] at he
      rcases List.mem_cons.mp he with h1 | h2
      · subst h1; exact ⟨rfl, le_refl _⟩
      · have h3 := ih (p0 + 1) e h2
        exact ⟨h3.1, by omega⟩
    | lit l => exact ih p0 e he
    | br body => exact ih p0 e he
    | mark k i => exact ih p0 e he

theorem isConvChar_ne_u (c : Char) (h : isConvChar c = true) : c ≠ '_' := by
  intro he
  subst he
  exact absurd h (by decide)

theorem braceEntriesFrom_val : ∀ (segs : List Seg) (b0 : Nat),
    (∀ s ∈ segs, segWF s = true) →
    ∀ e ∈ braceEntriesFrom b0 segs,
      (e.2.2.all (fun c => c != '_') && headNotF e.2.2) = true := by
  intro segs
  induction segs with
  | nil => intro b0 _ e he; simp [braceEntriesFrom] at he
  | cons s rest ih =>
    intro b0 h e he
    have hrest : ∀ s2 ∈ rest, segWF s2 = true := fun s2 h2 => h s2 (by simp [h2])
    cases s with
    | br body =>
      have hs := h (.br body) (by simp)
      rw [show braceEntriesFrom b0 (.br body :: rest) =
          (MKind.brace, b0, '{' :: (body ++ ['}'])) :: braceEntriesFrom (b0 + 1) rest
          from rfl] at he
      rcases List.mem_cons.mp he with h1 | h2
      · subst h1
        have hb : ∀ c ∈ body, c ≠ '_' := by
          intro c hc he2
          subst he2
          simp only [segWF, List.all_eq_true] at hs
          have h3 := hs '_' hc
          simp at h3
        simp only [Bool.and_eq_true, List.all_eq_true]
        refine ⟨?_, rfl⟩
        intro c hc
        simp only [List.mem_cons, List.mem_append, List.not_mem_nil, or_false] at hc
        rcases hc with rfl | hc2 | rfl
        · decide
        · simpa using hb c hc2
        · decide
      · exact ih (b0 + 1) hrest e h2
    | lit l => exact ih b0 hrest e he
    | pc body cv => exact ih b0 hrest e he
    | mark k i => exact ih b0 hrest e he

theorem percentEntriesFrom_val : ∀ (segs : List Seg) (p0 : Nat),
    (∀ s ∈ segs, segWF s = true) →
    ∀ e ∈ percentEntriesFrom p0 segs,
      (e.2.2.all (fun c => c != '_') && headNotF e.2.2) = true := by
  intro segs
  induction segs with
  | nil => intro p0 _ e he; simp [percentEntriesFrom] at he
  | cons s rest ih =>
    intro p0 h e he
    have hrest : ∀ s2 ∈ rest, segWF s2 = true := fun s2 h2 => h s2 (by simp [h2])
    cases s with
    | pc body cv =>
      have hs := h (.pc body cv) (by simp)
      rw [show percentEntriesFrom p0 (.pc body cv :: rest) =
          (MKind.percent, p0, '%' :: '(' :: (body ++ [')', cv])) ::
            percentEntriesFrom (p0 + 1) rest from rfl] at he
      rcases List.mem_cons.mp he with h1 | h2
      · subst h1
        simp only [segWF, Bool.and_eq_true, List.all_eq_true] at hs
        have hb : ∀ c ∈ body, c ≠ '_' := by
          intro c hc he2
          subst he2
          have h3 := hs.2 '_' hc
          simp at h3
        simp only [Bool.and_eq_true, List.all_eq_true]
        refine ⟨?_, rfl⟩
        intro c hc
        simp only [List.mem_cons, List.mem_append] at hc
        rcases hc with rfl | rfl | hc2 | hc3
        · decide
        · decide
        · simpa using hb c hc2
        · simp only [List.mem_cons, List.not_mem_nil, or_false] at hc3
          rcases hc3 with rfl | rfl
          · decide
          · simpa using isConvChar_ne_u c hs.1
      · exact ih (p0 + 1) hrest e h2
    | lit l => exact ih p0 hrest e he
    | br body => exact ih p0 hrest e he
    | mark k i => exact ih p0 hrest e he

theorem marked_shape : ∀ (segs : List Seg) (b0 p0 : Nat),
    (∀ s ∈ segs, segWF s = true) →
    ∀ s2 ∈ percentSubSegs p0 (braceSubSegs b0 segs),
      (∃ l, s2 = Seg.lit l) ∨
      (∃ i2, b0 ≤ i2 ∧ s2 = Seg.mark MKind.brace i2) ∨
      (∃ i2, p0 ≤ i2 ∧ s2 = Seg.mark MKind.percent i2) := by
  intro segs
  induction segs with
  | nil => intro b0 p0 _ s2 hs2; simp [braceSubSegs, percentSubSegs] at hs2
  | cons s rest ih =>
    intro b0 p0 h s2 hs2
    have hs := h s (by simp)
    have hrest : ∀ s3 ∈ rest, segWF s3 = true := fun s3 h3 => h s3 (by simp [h3])
    cases s with
    | lit l =>
      rw [show percentSubSegs p0 (braceSubSegs b0 (.lit l :: rest)) =
          .lit l :: percentSubSegs p0 (braceSubSegs b0 rest) from rfl] at hs2
      rcases List.mem_cons.mp hs2 with h1 | h2
      · exact Or.inl ⟨l, h1⟩
      · exact ih b0 p0 hrest s2 h2
    | br body =>
      rw [show percentSubSegs p0 (braceSubSegs b0 (.br body :: rest)) =
          .mark .brace b0 :: percentSubSegs p0 (braceSubSegs (b0 + 1) rest) from rfl] at hs2
      rcases List.mem_cons.mp hs2 with h1 | h2
      · exact Or.inr (Or.inl ⟨b0, le_refl _, h1⟩)
      · rcases ih (b0 + 1) p0 hrest s2 h2 with hA | ⟨i2, hi, hB⟩ | hC
        · exact Or.inl hA
        · exact Or.inr (Or.inl ⟨i2, by omega, hB⟩)
        · exact Or.inr (Or.inr hC)
    | pc body cv =>
      rw [show percentSubSegs p0 (braceSubSegs b0 (.pc body cv :: rest)) =
          .mark .percent p0 :: percentSubSegs (p0 + 1) (braceSubSegs b0 rest) from rfl] at hs2
      rcases List.mem_cons.mp hs2 with h1 | h2
      · exact Or.inr (Or.inr ⟨p0, le_refl _, h1⟩)
      · rcases ih b0 (p0 + 1) hrest s2 h2 with hA | hB | ⟨i2, hi, hC⟩
        · exact Or.inl hA
        · exact Or.inr (Or.inl hB)
        · exact Or.inr (Or.inr ⟨i2, by omega, hC⟩)
    | mark k i => simp [segWF] at hs

theorem marked_seg3WF : ∀ (segs : List Seg) (b0 p0 : Nat),
    (∀ s ∈ segs, segWF s = true) →
    ∀ s2 ∈ percentSubSegs p0 (braceSubSegs b0 segs), seg3WF s2 = true := by
  intro segs
  induction segs with
  | nil => intro b0 p0 _ s2 hs2; simp [braceSubSegs, percentSubSegs] at hs2
  | cons s rest ih =>
    intro b0 p0 h s2 hs2
    have hs := h s (by simp)
    have hrest : ∀ s3 ∈ rest, segWF s3 = true := fun s3 h3 => h s3 (by simp [h3])
    cases s with
    | lit l =>
      rw [show percentSubSegs p0 (braceSubSegs b0 (.lit l :: rest)) =
          .lit l :: percentSubSegs p0 (braceSubSegs b0 rest) from rfl] at hs2
      rcases List.mem_cons.mp hs2 with h1 | h2
      · subst h1
        simp only [segWF, List.all_eq_true] at hs
        simp only [seg3WF, Bool.and_eq_true, List.all_eq_true]
        constructor
        · intro c hc
          have h3 := hs c hc
          simp only [Bool.and_eq_true] at h3
          exact h3.1.2
        · cases l with
          | nil => rfl
          | cons c l2 =>
            have h3 := hs c (by simp)
            simp only [Bool.and_eq_true] at h3
            exact h3.2
      · exact ih b0 p0 hrest s2 h2
    | br body =>
      rw [show percentSubSegs p0 (braceSubSegs b0 (.br body :: rest)) =
          .mark .brace b0 :: percentSubSegs p0 (braceSubSegs (b0 + 1) rest) from rfl] at hs2
      rcases List.mem_cons.mp hs2 with h1 | h2
      · subst h1; rfl
      · exact ih (b0 + 1) p0 hrest s2 h2
    | pc body cv =>
      rw [show percentSubSegs p0 (braceSubSegs b0 (.pc body cv :: rest)) =
          .mark .percent p0 :: percentSubSegs (p0 + 1) (braceSubSegs b0 rest) from rfl] at hs2
      rcases List.mem_cons.mp hs2 with h1 | h2
      · subst h1; rfl
      · exact ih b0 (p0 + 1) hrest s2 h2
    | mark k i => simp [segWF] at hs

theorem marked_map : ∀ (segs : List Seg) (b0 p0 : Nat),
    (∀ s ∈ segs, segWF s = true) →
    (percentSubSegs p0 (braceSubSegs b0 segs)).map
        (substList (braceEntriesFrom b0 segs ++ percentEntriesFrom p0 segs)) =
      segs.map (fun s => Seg.lit (Seg.flat s)) := by
  intro segs
  induction segs with
  | nil => intro b0 p0 _; rfl
  | cons s rest ih =>
    intro b0 p0 h
    have hs := h s (by simp)
    have hrest : ∀ s3 ∈ rest, segWF s3 = true := fun s3 h3 => h s3 (by simp [h3])
    cases s with
    | lit l =>
      rw [show braceEntriesFrom b0 (Seg.lit l :: rest) = braceEntriesFrom b0 rest
        from rfl]
      rw [show percentEntriesFrom p0 (Seg.lit l :: rest) = percentEntriesFrom p0 rest
        from rfl]
      rw [show percentSubSegs p0 (braceSubSegs b0 (Seg.lit l :: rest)) =
          Seg.lit l :: percentSubSegs p0 (braceSubSegs b0 rest) from rfl]
      rw [List.map_cons, List.map_cons, substList_lit, ih b0 p0 hrest]
      rfl
    | br body =>
      rw [show braceEntriesFrom b0 (Seg.br body :: rest) =
          (MKind.brace, b0, '{' :: (body ++ ['}'])) :: braceEntriesFrom (b0 + 1) rest
          from rfl]
      rw [show percentEntriesFrom p0 (Seg.br body :: rest) = percentEntriesFrom p0 rest
        from rfl]
      rw [show percentSubSegs p0 (braceSubSegs b0 (Seg.br body :: rest)) =
          Seg.mark MKind.brace b0 :: percentSubSegs p0 (braceSubSegs (b0 + 1) rest)
          from rfl]
      rw [show ((MKind.brace, b0, '{' :: (body ++ ['}'])) ::
            braceEntriesFrom (b0 + 1) rest) ++ percentEntriesFrom p0 rest =
          (MKind.brace, b0, '{' :: (body ++ ['}'])) ::
            (braceEntriesFrom (b0 + 1) rest ++ percentEntriesFrom p0 rest) from rfl]
      rw [List.map_cons, List.map_cons]
      congr 1
      · rw [substList_cons]
        rw [show substMark1 MKind.brace b0 ('{' :: (body ++ ['}']))
            (Seg.mark MKind.brace b0) = Seg.lit ('{' :: (body ++ ['}'])) from by
          simp [substMark1]]
        rw [substList_lit]
        rfl
      · have hmap : (percentSubSegs p0 (braceSubSegs (b0 + 1) rest)).map
            (substList ((MKind.brace, b0, '{' :: (body ++ ['}'])) ::
              (braceEntriesFrom (b0 + 1) rest ++ percentEntriesFrom p0 rest))) =
            (percentSubSegs p0 (braceSubSegs (b0 + 1) rest)).map
              (substList (braceEntriesFrom (b0 + 1) rest ++ percentEntriesFrom p0 rest)) :=
          List.map_congr_left (fun s2 hs2 => by
            rw [substList_cons]
            congr 1
            rcases marked_shape rest (b0 + 1) p0 hrest s2 hs2 with
              ⟨l, rfl⟩ | ⟨i2, hi, rfl⟩ | ⟨i2, hi, rfl⟩
            · rfl
            · exact substMark1_mark_ne _ _ _ _ _
                (fun hc => by have h2 : i2 = b0 := hc.2; omega)
            · exact substMark1_mark_ne _ _ _ _ _
                (fun hc => by have h1 : MKind.percent = MKind.brace := hc.1; cases h1)
          )
        rw [hmap]
        exact ih (b0 + 1) p0 hrest
    | pc body cv =>
      rw [show braceEntriesFrom b0 (Seg.pc body cv :: rest) = braceEntriesFrom b0 rest
        from rfl]
      rw [show percentEntriesFrom p0 (Seg.pc body cv :: rest) =
          (MKind.percent, p0, '%' :: '(' :: (body ++ [')', cv])) ::
            percentEntriesFrom (p0 + 1) rest from rfl]
      rw [show percentSubSegs p0 (braceSubSegs b0 (Seg.pc body cv :: rest)) =
          Seg.mark MKind.percent p0 :: percentSubSegs (p0 + 1) (braceSubSegs b0 rest)
          from rfl]
      rw [List.map_cons, List.map_cons]
      congr 1
      · rw [substList_append]
        rw [substList_skip (Seg.mark MKind.percent p0) (braceEntriesFrom b0 rest)
          (fun e2 he2 => by
            have hk := (braceEntriesFrom_shape rest b0 e2 he2).1
            apply substMark1_mark_ne
            rintro ⟨h1, _⟩
            rw [hk] at h1
            cases h1)]
        rw [substList_cons]
        rw [show substMark1 MKind.percent p0 ('%' :: '(' :: (body ++ [')', cv]))
            (Seg.mark MKind.percent p0) =
            Seg.lit ('%' :: '(' :: (body ++ [')', cv])) from by simp [substMark1]]
        rw [substList_lit]
        rfl
      · have hmap : (percentSubSegs (p0 + 1) (braceSubSegs b0 rest)).map
            (substList (braceEntriesFrom b0 rest ++
              ((MKind.percent, p0, '%' :: '(' :: (body ++ [')', cv])) ::
                percentEntriesFrom (p0 + 1) rest))) =
            (percentSubSegs (p0 + 1) (braceSubSegs b0 rest)).map
              (substList (braceEntriesFrom b0 rest ++ percentEntriesFrom (p0 + 1) rest)) :=
          List.map_congr_left (fun s2 hs2 =>
            substList_middle (MKind.percent, p0, '%' :: '(' :: (body ++ [')', cv]))
              (braceEntriesFrom b0 rest) (percentEntriesFrom (p0 + 1) rest) s2 (by
                rcases marked_shape rest b0 (p0 + 1) hrest s2 hs2 with
                  ⟨l, hl⟩ | ⟨i2, hi, hm⟩ | ⟨i2, hi, hm⟩
                · exact Or.inl ⟨l, hl⟩
                · exact Or.inr ⟨MKind.brace, i2,
                    ⟨(fun hc => by have h1 : MKind.brace = MKind.percent := hc.1; cases h1),
                     hm⟩⟩
                · exact Or.inr ⟨MKind.percent, i2,
                    ⟨(fun hc => by have h2 : i2 = p0 := hc.2; omega), hm⟩⟩))
        rw [hmap]
        exact ih b0 (p0 + 1) hrest
    | mark k i => simp [segWF] at hs

theorem flatSegs_litmap : ∀ segs : List Seg,
    flatSegs (segs.map (fun s => Seg.lit (Seg.flat s))) = flatSegs segs := by
  intro segs
  induction segs with
  | nil => rfl
  | cons s rest ih =>
    rw [List.map_cons, flatSegs_cons, flatSegs_cons, ih]
    rfl

/-- C1 (corrected): the unrestricted round-trip fails (see
`roundTrip_counterexample`), but it holds for every text decomposable into
literal runs avoiding the scanner and marker characters `{`, `%`, `_`, `F`,
brace placeholders whose bodies avoid braces and `_`, and percent
placeholders whose bodies avoid parentheses, `{` and `_`: restoration
applied to the extraction's processed text and placeholder map yields the
original text. -/
theorem roundTrip_grammar (segs : List Seg) (h : ∀ s ∈ segs, segWF s = true) :
    restoreFormatPlaceholders (extractFormatPlaceholders (flatSegs segs)).1
      (extractFormatPlaceholders (flatSegs segs)).2 = flatSegs segs := by
  rw [extract_flat segs h]
  show restoreFormatPlaceholders (flatSegs (percentSubSegs 0 (braceSubSegs 0 segs)))
      (entriesToMap (braceEntriesFrom 0 segs) ++
        entriesToMap (percentEntriesFrom 0 segs)) = flatSegs segs
  rw [show entriesToMap (braceEntriesFrom 0 segs) ++
        entriesToMap (percentEntriesFrom 0 segs) =
      entriesToMap (braceEntriesFrom 0 segs ++ percentEntriesFrom 0 segs) from
    (List.map_append _ _ _).symm]
  have hval : ∀ e ∈ braceEntriesFrom 0 segs ++ percentEntriesFrom 0 segs,
      (e.2.2.all (fun c => c != '_') && headNotF e.2.2) = true := by
    intro e he
    rcases List.mem_append.mp he with h1 | h2
    · exact braceEntriesFrom_val segs 0 h e h1
    · exact percentEntriesFrom_val segs 0 h e h2
  rw [restore_fold _ _ (marked_seg3WF segs 0 0 h) hval]
  rw [substMarks_map, marked_map segs 0 0 h, flatSegs_litmap]

/-- C1 witness: a concrete text with one brace and one percent placeholder
survives the extract/restore round-trip. -/
theorem roundTrip_grammar_witness :
    (∀ s ∈ ([Seg.lit ['H', 'i', ' '], Seg.br ['n', 'a', 'm', 'e'], Seg.lit ['!'],
        Seg.pc ['n', 'u', 'm'] 'd'] : List Seg), segWF s = true) ∧
    restoreFormatPlaceholders
        (extractFormatPlaceholders (flatSegs [Seg.lit ['H', 'i', ' '],
          Seg.br ['n', 'a', 'm', 'e'], Seg.lit ['!'], Seg.pc ['n', 'u', 'm'] 'd'])).1
        (extractFormatPlaceholders (flatSegs [Seg.lit ['H', 'i', ' '],
          Seg.br ['n', 'a', 'm', 'e'], Seg.lit ['!'], Seg.pc ['n', 'u', 'm'] 'd'])).2 =
      flatSegs [Seg.lit ['H', 'i', ' '], Seg.br ['n', 'a', 'm', 'e'], Seg.lit ['!'],
        Seg.pc ['n', 'u', 'm'] 'd'] :=
  ⟨by decide, roundTrip_grammar _ (by decide)⟩

/-- C1 counterexample: on `%({x})s` the brace pass turns the percent span
into `%(__FORMAT_BRACE_0__)s`, the percent pass records that mutated span,
and restoration (brace markers first) leaves the brace marker inside the
reinserted percent placeholder unrestored. -/
theorem roundTrip_counterexample :
    restoreFormatPlaceholders
        (extractFormatPlaceholders ['%', '(', '{', 'x', '}', ')', 's']).1
        (extractFormatPlaceholders ['%', '(', '{', 'x', '}', ')', 's']).2 ≠
      ['%', '(', '{', 'x', '}', ')', 's'] := by decide

/-- C7 (corrected): a text without any brace or percent match is returned
unchanged with an empty map; and over grammar-decomposable texts the
processed text is exactly the in-place segment substitution, so characters
outside the matched spans are untouched.  Without the grammar restriction
the span-preservation claim fails (see
`extract_noninterference_counterexample`). -/
theorem extract_noninterference (text : List Char) (segs : List Seg) :
    (braceFinditer text = [] ∧ percentFinditer text = [] →
      extractFormatPlaceholders text = (text, [])) ∧
    ((∀ s ∈ segs, segWF s = true) →
      (extractFormatPlaceholders (flatSegs segs)).1 =
        flatSegs (percentSubSegs 0 (braceSubSegs 0 segs))) := by
  constructor
  · rintro ⟨h1, h2⟩
    simp only [extractFormatPlaceholders, h1, h2, List.enum_nil, List.foldl_nil]
  · intro h
    rw [extract_flat segs h]

/-- C7 witness: a plain text passes through extraction unchanged with an
empty map, and on a single-brace-placeholder text the processed text is the
in-place substitution. -/
theorem extract_noninterference_witness :
    extractFormatPlaceholders ['H', 'i'] = (['H', 'i'], []) ∧
    (extractFormatPlaceholders (flatSegs [Seg.br ['a']])).1 =
      flatSegs (percentSubSegs 0 (braceSubSegs 0 [Seg.br ['a']])) :=
  ⟨(extract_noninterference ['H', 'i'] []).1 (by decide),
   (extract_noninterference ['H', 'i'] [Seg.br ['a']]).2 (by decide)⟩

/-- C7 counterexample: on `{x{a}y}{x__FORMAT_BRACE_0__y}` the two brace
matches are `{a}` and `{x__FORMAT_BRACE_0__y}`, but replacing the second
match hits the spurious earlier occurrence its marker created, so
characters outside the matched spans are altered and the processed text is
not the in-place substitution of the spans. -/
theorem extract_noninterference_counterexample :
    braceFinditer (flatSegs [Seg.lit ['{', 'x'], Seg.br ['a'], Seg.lit ['y', '}'],
        Seg.br ('x' :: (markerStr MKind.brace 0 ++ ['y']))]) =
      ['{' :: (['a'] ++ ['}']),
       '{' :: (('x' :: (markerStr MKind.brace 0 ++ ['y'])) ++ ['}'])] ∧
    (extractFormatPlaceholders (flatSegs [Seg.lit ['{', 'x'], Seg.br ['a'],
        Seg.lit ['y', '}'], Seg.br ('x' :: (markerStr MKind.brace 0 ++ ['y']))])).1 ≠
      flatSegs (percentSubSegs 0 (braceSubSegs 0 [Seg.lit ['{', 'x'], Seg.br ['a'],
        Seg.lit ['y', '}'], Seg.br ('x' :: (markerStr MKind.brace 0 ++ ['y']))])) := by
  decide

end PoTranslator
